import Mathlib

/-!
Shallow embedding of the `vcav.io` website simulation playback engine
(`src/components/simulation/types.ts` and the two revisions of the playback
engine: the character-granularity `engine.ts` and the evolved
word-granularity engine with error micro-freeze).

Wall-clock instants (`performance.now()`) and millisecond offsets are
modelled as `Int`.  JavaScript `undefined` flowing out of an out-of-bounds
array read is modelled as `Option`.  Host timer handles (`rafId`,
`intervalId`) are modelled as a `Bool` recording whether a callback is
currently scheduled.  Renderer callbacks are modelled as an output trace.
-/

namespace Sim

/-! ## Data model (types.ts) -/

inductive PanelId
  | left
  | right
deriving DecidableEq, Repr

def PanelId.str : PanelId → String
  | .left => "left"
  | .right => "right"

inductive MessageSender
  | user
  | bot
deriving DecidableEq, Repr

inductive PhaseId
  | preSession
  | protocol
  | postSession
deriving DecidableEq, Repr

structure ChatMessage where
  panel : PanelId
  sender : MessageSender
  name : String
  text : String
  delayMs : Int
deriving DecidableEq, Repr

inductive ProtocolLineKind
  | keyValue
  | heading
  | blank
  | commentLine
  | statusOk
  | statusError
  | bullet
  | json
deriving DecidableEq, Repr

structure ProtocolLine where
  kind : ProtocolLineKind
  text : String
  value : Option String := none
  commentText : Option String := none
deriving DecidableEq, Repr

structure StatusLine where
  ok : Bool
  text : String
  note : Option String := none
deriving DecidableEq, Repr

structure ProtocolSubCard where
  lines : List ProtocolLine
  delayMs : Int
deriving DecidableEq, Repr

structure ProtocolCard where
  id : String
  stepLabel : String
  title : String
  lines : List ProtocolLine
  statusLine : Option StatusLine := none
  subCards : Option (List ProtocolSubCard) := none
  /-- optional in the source; absent (`undefined`) behaves as `false` -/
  isError : Bool := false
  delayMs : Int
deriving DecidableEq, Repr

structure SignalFlowEvent where
  delayMs : Int
  json : String
deriving DecidableEq, Repr

structure PhaseTransition where
  phase : PhaseId
  delayMs : Int
deriving DecidableEq, Repr

inductive ScenarioEvent
  | chat (event : ChatMessage)
  | protocolCard (event : ProtocolCard)
  | signalFlow (event : SignalFlowEvent)
  | phaseTransition (event : PhaseTransition)
deriving DecidableEq, Repr

structure Scenario where
  id : String
  title : String
  totalDurationMs : Int
  events : List ScenarioEvent
deriving DecidableEq, Repr

inductive LifecyclePhase
  | idle
  | playing
  | paused
  | complete
deriving DecidableEq, Repr

structure PlaybackState where
  phase : LifecyclePhase
  currentPhase : PhaseId
  elapsedMs : Int
  totalDurationMs : Int
deriving DecidableEq, Repr

/-! ## Engine state (word-granularity engine with micro-freeze) -/

structure ScheduledEvent where
  fireAtMs : Int
  event : ScenarioEvent
  fired : Bool
deriving DecidableEq, Repr

structure ActiveTyping where
  msg : ChatMessage
  text : String
  charIndex : Option Nat
  wordEnds : List Nat
  wordIndex : Nat
  intervalId : Bool
deriving DecidableEq, Repr

structure Engine where
  scenario : Scenario
  state : PlaybackState
  startTimeMs : Option Int
  pausedAtMs : Int
  rafId : Bool
  scheduled : List ScheduledEvent
  activeTypings : List (String × ActiveTyping)
  microPauseStartMs : Option Int
  microPauseDurationMs : Int
deriving DecidableEq, Repr

/-- Renderer callbacks (`EngineCallbacks`), recorded as trace elements. -/
inductive Callback
  | onPhaseChange (phase : PhaseId)
  | onChatMessage (msg : ChatMessage) (charIndex : Option Nat) (totalChars : Nat)
  | onChatMessageComplete (msg : ChatMessage)
  | onProtocolCard (card : ProtocolCard)
  | onSignalFlow (json : String)
  | onProgress (elapsedMs totalDurationMs : Int)
  | onComplete
deriving DecidableEq, Repr

def ScenarioEvent.delayMs : ScenarioEvent → Int
  | .chat e => e.delayMs
  | .protocolCard e => e.delayMs
  | .signalFlow e => e.delayMs
  | .phaseTransition e => e.delayMs

/-- Stable insertion of an entry into a schedule sorted ascending by
`fireAtMs`: entries with a strictly smaller offset stay in front, so the
inserted (originally earlier) entry lands before entries with an equal
offset — the stability JS `Array.prototype.sort` guarantees. -/
def insertByFireAt (s : ScheduledEvent) : List ScheduledEvent → List ScheduledEvent
  | [] => [s]
  | t :: rest =>
    if t.fireAtMs < s.fireAtMs then t :: insertByFireAt s rest
    else s :: t :: rest

/-- Stable sort ascending by `fireAtMs` (structural insertion sort, the
extensional behavior of the JS stable `Array.sort` with the comparator
`(a, b) => a.fireAtMs - b.fireAtMs`). -/
def sortByFireAt : List ScheduledEvent → List ScheduledEvent
  | [] => []
  | s :: rest => insertByFireAt s (sortByFireAt rest)

/-- `_buildSchedule`: map each event to a `{fireAtMs, event, fired := false}`
record, then sort ascending by `fireAtMs` (stable, like JS `Array.sort`). -/
def buildSchedule (scn : Scenario) : List ScheduledEvent :=
  sortByFireAt
    (scn.events.map (fun ev => { fireAtMs := ev.delayMs, event := ev, fired := false }))

/-- Constructor state of the engine. -/
def Engine.init (scn : Scenario) : Engine where
  scenario := scn
  state :=
    { phase := .idle
      currentPhase := .preSession
      elapsedMs := 0
      totalDurationMs := scn.totalDurationMs }
  startTimeMs := none
  pausedAtMs := 0
  rafId := false
  scheduled := buildSchedule scn
  activeTypings := []
  microPauseStartMs := none
  microPauseDurationMs := 800

/-- `getState()`: defensive copy of the playback state. -/
def Engine.getState (e : Engine) : PlaybackState := e.state

/-- `_elapsed()`, at wall-clock instant `now`. -/
def Engine.elapsedAt (e : Engine) (now : Int) : Int :=
  match e.startTimeMs with
  | none => 0
  | some st => now - st

/-! Association-list model of the JS `Map` holding active typing sessions
(keys are unique, `set` replaces in place, iteration in insertion order). -/

def mapLookup (k : String) : List (String × ActiveTyping) → Option ActiveTyping
  | [] => none
  | (k', t) :: rest => if k' = k then some t else mapLookup k rest

def mapSet (k : String) (v : ActiveTyping) : List (String × ActiveTyping) → List (String × ActiveTyping)
  | [] => [(k, v)]
  | (k', t) :: rest => if k' = k then (k, v) :: rest else (k', t) :: mapSet k v rest

def mapErase (k : String) : List (String × ActiveTyping) → List (String × ActiveTyping)
  | [] => []
  | (k', t) :: rest => if k' = k then rest else (k', t) :: mapErase k rest

/-- Typing-session key: `` `${msg.panel}-${msg.delayMs}` ``. -/
def typingKey (msg : ChatMessage) : String :=
  msg.panel.str ++ "-" ++ toString msg.delayMs

/-- `_computeWordEnds`: indices that hold a space or are the final index. -/
def computeWordEnds (text : String) : List Nat :=
  (List.range text.length).filter
    (fun i => decide (text.data[i]? = some ' ') || decide (i = text.length - 1))

/-- `_startTyping` of the word-granularity engine.  The first word is
revealed immediately; a single-word (or empty) message completes at once
with no session; otherwise a session armed with a pending step is stored.
An out-of-bounds read `wordEnds[0]` (empty text) yields `none`. -/
def Engine.startTyping (e : Engine) (msg : ChatMessage) : Engine × List Callback :=
  let key := typingKey msg
  let totalChars := msg.text.length
  let wordEnds := computeWordEnds msg.text
  let firstEnd := wordEnds[0]?
  let out0 := Callback.onChatMessage msg firstEnd totalChars
  if wordEnds.length ≤ 1 then
    (e, [out0, Callback.onChatMessageComplete msg])
  else
    let typing : ActiveTyping :=
      { msg := msg, text := msg.text, charIndex := firstEnd, wordEnds := wordEnds,
        wordIndex := 1, intervalId := true }
    ({ e with activeTypings := mapSet key typing e.activeTypings }, [out0])

/-- `_fireEvent`: dispatch one due event.  An error-flagged protocol card
additionally records the micro-freeze start instant. -/
def Engine.fireEvent (e : Engine) (now : Int) (ev : ScenarioEvent) : Engine × List Callback :=
  match ev with
  | .phaseTransition pt =>
      ({ e with state := { e.state with currentPhase := pt.phase } },
       [Callback.onPhaseChange pt.phase])
  | .chat msg => e.startTyping msg
  | .protocolCard card =>
      if card.isError then
        ({ e with microPauseStartMs := some now }, [Callback.onProtocolCard card])
      else
        (e, [Callback.onProtocolCard card])
  | .signalFlow sf => (e, [Callback.onSignalFlow sf.json])

/-- The due-event loop of `_tick`: walk the schedule in order, firing every
unfired entry whose `fireAtMs ≤ elapsed` and marking it fired.  Returns the
threaded engine, the updated schedule, and the emitted callbacks. -/
def Engine.fireDue (e : Engine) (now elapsed : Int) :
    List ScheduledEvent → Engine × List ScheduledEvent × List Callback
  | [] => (e, [], [])
  | s :: rest =>
    if !s.fired && decide (s.fireAtMs ≤ elapsed) then
      let fe := e.fireEvent now s.event
      let r := Engine.fireDue fe.1 now elapsed rest
      (r.1, { s with fired := true } :: r.2.1, fe.2 ++ r.2.2)
    else
      let r := Engine.fireDue e now elapsed rest
      (r.1, s :: r.2.1, r.2.2)

/-- The body of `_tick` after the micro-freeze check: compute elapsed, fire
due events, report progress, transition to `complete` when elapsed reaches
the total duration, otherwise request the next tick. -/
def Engine.tickMain (e : Engine) (now : Int) : Engine × List Callback :=
  let elapsed := e.elapsedAt now
  let e1 := { e with state := { e.state with elapsedMs := elapsed } }
  let r := Engine.fireDue e1 now elapsed e1.scheduled
  let e2 := { r.1 with scheduled := r.2.1 }
  let outs := r.2.2 ++ [Callback.onProgress elapsed e.scenario.totalDurationMs]
  if decide (e.scenario.totalDurationMs ≤ elapsed) then
    ({ e2 with state := { e2.state with phase := .complete } },
     outs ++ [Callback.onComplete])
  else
    ({ e2 with rafId := true }, outs)

/-- `_tick`: no-op unless playing; while a micro-freeze is active keep
ticking without advancing; once the dwell has elapsed in wall-clock terms,
shift the clock origin forward by the observed frozen span. -/
def Engine.tick (e : Engine) (now : Int) : Engine × List Callback :=
  if e.state.phase ≠ .playing then (e, [])
  else
    match e.microPauseStartMs with
    | some m =>
      let frozenMs := now - m
      if frozenMs < e.microPauseDurationMs then
        ({ e with rafId := true }, [])
      else
        Engine.tickMain
          { e with startTimeMs := some (e.startTimeMs.getD 0 + frozenMs),
                   microPauseStartMs := none } now
    | none => Engine.tickMain e now

/-- `_resumeTypings`: re-arm a pending step for every session without one. -/
def Engine.resumeTypings (e : Engine) : Engine :=
  { e with
    activeTypings := e.activeTypings.map
      (fun kt => (kt.1, if kt.2.intervalId then kt.2 else { kt.2 with intervalId := true })) }

/-- `play()`. -/
def Engine.play (e : Engine) (now : Int) : Engine × List Callback :=
  if e.state.phase = .complete then (e, [])
  else if e.state.phase = .playing then (e, [])
  else
    let e1 :=
      if e.state.phase = .idle then
        { e with startTimeMs := some now, pausedAtMs := 0 }
      else
        { e with startTimeMs := some (now - e.pausedAtMs) }
    let e2 := { e1 with state := { e1.state with phase := .playing } }
    (e2.resumeTypings).tick now

/-- `pause()`: record the pause offset, cancel the tick and suspend every
active typing session (cancel its pending step, keep its cursor). -/
def Engine.pause (e : Engine) (now : Int) : Engine :=
  if e.state.phase ≠ .playing then e
  else
    let e1 := { e with state := { e.state with phase := .paused } }
    { e1 with
      pausedAtMs := e1.elapsedAt now
      rafId := false
      activeTypings := e1.activeTypings.map
        (fun kt => (kt.1, { kt.2 with intervalId := false })) }

/-- `reset()`: cancel everything, discard sessions, clear fired flags,
restore the initial snapshot. -/
def Engine.reset (e : Engine) : Engine where
  scenario := e.scenario
  state :=
    { phase := .idle
      currentPhase := .preSession
      elapsedMs := 0
      totalDurationMs := e.scenario.totalDurationMs }
  startTimeMs := none
  pausedAtMs := 0
  rafId := false
  scheduled := e.scheduled.map (fun s => { s with fired := false })
  activeTypings := []
  microPauseStartMs := none
  microPauseDurationMs := e.microPauseDurationMs

/-- The typing-step closure scheduled by `_scheduleTypingTick`: a stale step
(engine not playing, or session gone) is a no-op; otherwise jump the cursor
to the next word boundary, report it, and either complete (cursor reached
the final character) or re-arm.  An out-of-bounds `wordEnds[wordIndex]`
read yields `none` (JS `undefined`), and `undefined >= n` is `false`. -/
def Engine.typingStep (e : Engine) (key : String) : Engine × List Callback :=
  if e.state.phase ≠ .playing then (e, [])
  else
    match mapLookup key e.activeTypings with
    | none => (e, [])
    | some t =>
      let totalChars := t.text.length
      let newCharIndex := t.wordEnds[t.wordIndex]?
      let out := Callback.onChatMessage t.msg newCharIndex totalChars
      let reachedEnd :=
        match newCharIndex with
        | some c => decide (totalChars - 1 ≤ c)
        | none => false
      if reachedEnd then
        ({ e with activeTypings := mapErase key e.activeTypings },
         [out, Callback.onChatMessageComplete t.msg])
      else
        let t1 := { t with charIndex := newCharIndex, wordIndex := t.wordIndex + 1,
                           intervalId := true }
        ({ e with activeTypings := mapSet key t1 e.activeTypings }, [out])

/-! ## Interleaved execution

A run is a sequence of externally-arriving commands: the public operations
`play`/`pause`/`reset` and the two kinds of scheduled callbacks (the clock
tick and a typing-step timer), each carrying the wall-clock instant at
which it runs.  This over-approximates the host scheduler: callbacks may
arrive at any moment, and the engine's own guards must make stale ones
harmless. -/

inductive Cmd
  | play (now : Int)
  | pause (now : Int)
  | tick (now : Int)
  | typingTick (key : String)
  | reset
deriving DecidableEq, Repr

def Engine.step (e : Engine) : Cmd → Engine × List Callback
  | .play now => e.play now
  | .pause now => (e.pause now, [])
  | .tick now => e.tick now
  | .typingTick key => e.typingStep key
  | .reset => (e.reset, [])

def Engine.runE (e : Engine) : List Cmd → Engine
  | [] => e
  | c :: cs => Engine.runE (e.step c).1 cs

def Engine.runOuts (e : Engine) : List Cmd → List Callback
  | [] => []
  | c :: cs => (e.step c).2 ++ Engine.runOuts (e.step c).1 cs

/-- State after the first `k` commands of a run from the fresh engine. -/
def stateAt (scn : Scenario) (cmds : List Cmd) (k : Nat) : Engine :=
  Engine.runE (Engine.init scn) (cmds.take k)

/-- Callbacks emitted by the `k`-th command of a run from the fresh engine. -/
def outsAt (scn : Scenario) (cmds : List Cmd) (k : Nat) : List Callback :=
  match cmds[k]? with
  | none => []
  | some c => ((stateAt scn cmds k).step c).2

/-! ## Character-granularity typing sub-engine (`engine.ts`) -/

structure CharSession where
  msg : ChatMessage
  charIndex : Nat
deriving DecidableEq, Repr

/-- `_startTyping` of the character engine: reveal 0 characters at once so
the bubble appears, and arm a session whose cursor starts at 1. -/
def charTypingStart (msg : ChatMessage) : List Callback × CharSession :=
  ([Callback.onChatMessage msg (some 0) msg.text.length],
   { msg := msg, charIndex := 1 })

/-- One step of the character engine's typing closure: report the cursor,
advance it, and complete once it has passed the final character. -/
def charTypingTick (s : CharSession) : List Callback × Option CharSession :=
  let totalChars := s.msg.text.length
  let out := Callback.onChatMessage s.msg (some s.charIndex) totalChars
  let next := s.charIndex + 1
  if totalChars ≤ next then
    ([out, Callback.onChatMessageComplete s.msg], none)
  else
    ([out], some { s with charIndex := next })

def charTypingRun : Nat → CharSession → List Callback
  | 0, _ => []
  | fuel + 1, s =>
    match charTypingTick s with
    | (outs, none) => outs
    | (outs, some s1) => outs ++ charTypingRun fuel s1

/-- The full uninterrupted callback trace of one character-typing session. -/
def charTrace (msg : ChatMessage) : List Callback :=
  let st := charTypingStart msg
  st.1 ++ charTypingRun (msg.text.length + 1) st.2

/-! ## Characterizations of the due-event loop -/

/-- Whether an event is an error-flagged protocol card (starts a freeze). -/
def isErrorCard : ScenarioEvent → Bool
  | .protocolCard c => c.isError
  | _ => false

/-- The callbacks `_fireEvent` emits for one event (a pure function of the
event). -/
def fireEventOuts : ScenarioEvent → List Callback
  | .phaseTransition pt => [Callback.onPhaseChange pt.phase]
  | .chat msg =>
    let wordEnds := computeWordEnds msg.text
    let out0 := Callback.onChatMessage msg wordEnds[0]? msg.text.length
    if wordEnds.length ≤ 1 then [out0, Callback.onChatMessageComplete msg]
    else [out0]
  | .protocolCard card => [Callback.onProtocolCard card]
  | .signalFlow sf => [Callback.onSignalFlow sf.json]

/-- A schedule after one pass of the due-event loop: every unfired entry
that was due gets its fired flag set. -/
def markDue (elapsed : Int) (l : List ScheduledEvent) : List ScheduledEvent :=
  l.map (fun s => if !s.fired && decide (s.fireAtMs ≤ elapsed) then { s with fired := true } else s)

/-- The entries one pass of the due-event loop fires, in schedule order. -/
def dueNow (elapsed : Int) (l : List ScheduledEvent) : List ScheduledEvent :=
  l.filter (fun s => !s.fired && decide (s.fireAtMs ≤ elapsed))

theorem fireEvent_outs (e : Engine) (now : Int) (ev : ScenarioEvent) :
    (e.fireEvent now ev).2 = fireEventOuts ev := by
  cases ev <;> simp only [Engine.fireEvent, Engine.startTyping, fireEventOuts] <;> split <;> simp

theorem fireEvent_pres (e : Engine) (now : Int) (ev : ScenarioEvent) :
    (e.fireEvent now ev).1.scheduled = e.scheduled
    ∧ (e.fireEvent now ev).1.state.phase = e.state.phase
    ∧ (e.fireEvent now ev).1.state.elapsedMs = e.state.elapsedMs
    ∧ (e.fireEvent now ev).1.state.totalDurationMs = e.state.totalDurationMs
    ∧ (e.fireEvent now ev).1.startTimeMs = e.startTimeMs
    ∧ (e.fireEvent now ev).1.pausedAtMs = e.pausedAtMs
    ∧ (e.fireEvent now ev).1.rafId = e.rafId
    ∧ (e.fireEvent now ev).1.scenario = e.scenario
    ∧ (e.fireEvent now ev).1.microPauseDurationMs = e.microPauseDurationMs := by
  cases ev <;> simp only [Engine.fireEvent, Engine.startTyping] <;>
    first
    | (split <;> simp)
    | simp

theorem fireEvent_micro (e : Engine) (now : Int) (ev : ScenarioEvent) :
    (e.fireEvent now ev).1.microPauseStartMs =
      if isErrorCard ev then some now else e.microPauseStartMs := by
  cases ev <;> simp only [Engine.fireEvent, Engine.startTyping, isErrorCard] <;>
    first
    | (split <;> simp)
    | simp

theorem fireDue_sched (e : Engine) (now elapsed : Int) (l : List ScheduledEvent) :
    (e.fireDue now elapsed l).2.1 = markDue elapsed l := by
  induction l generalizing e with
  | nil => simp [Engine.fireDue, markDue]
  | cons s rest ih =>
    simp only [Engine.fireDue, markDue, List.map_cons]
    split <;> rename_i h <;> simp only [markDue] at ih <;> simp [h, ih]

theorem fireDue_outs (e : Engine) (now elapsed : Int) (l : List ScheduledEvent) :
    (e.fireDue now elapsed l).2.2 = (dueNow elapsed l).flatMap (fun s => fireEventOuts s.event) := by
  induction l generalizing e with
  | nil => simp [Engine.fireDue, dueNow]
  | cons s rest ih =>
    simp only [Engine.fireDue, dueNow, List.filter_cons]
    split <;> rename_i h <;> simp only [dueNow] at ih <;> simp [h, ih, fireEvent_outs]

theorem fireDue_pres (e : Engine) (now elapsed : Int) (l : List ScheduledEvent) :
    (e.fireDue now elapsed l).1.scheduled = e.scheduled
    ∧ (e.fireDue now elapsed l).1.state.phase = e.state.phase
    ∧ (e.fireDue now elapsed l).1.state.elapsedMs = e.state.elapsedMs
    ∧ (e.fireDue now elapsed l).1.state.totalDurationMs = e.state.totalDurationMs
    ∧ (e.fireDue now elapsed l).1.startTimeMs = e.startTimeMs
    ∧ (e.fireDue now elapsed l).1.pausedAtMs = e.pausedAtMs
    ∧ (e.fireDue now elapsed l).1.rafId = e.rafId
    ∧ (e.fireDue now elapsed l).1.scenario = e.scenario
    ∧ (e.fireDue now elapsed l).1.microPauseDurationMs = e.microPauseDurationMs := by
  induction l generalizing e with
  | nil => simp [Engine.fireDue]
  | cons s rest ih =>
    simp only [Engine.fireDue]
    split
    · obtain ⟨p1, p2, p3, p4, p5, p6, p7, p8, p9⟩ := fireEvent_pres e now s.event
      obtain ⟨q1, q2, q3, q4, q5, q6, q7, q8, q9⟩ := ih (e.fireEvent now s.event).1
      exact ⟨q1.trans p1, q2.trans p2, q3.trans p3, q4.trans p4, q5.trans p5,
        q6.trans p6, q7.trans p7, q8.trans p8, q9.trans p9⟩
    · exact ih e

theorem tickMain_spec (e : Engine) (now : Int) :
    (e.tickMain now).1.scheduled = markDue (e.elapsedAt now) e.scheduled
    ∧ (e.tickMain now).1.state.elapsedMs = e.elapsedAt now
    ∧ (e.tickMain now).1.state.phase =
        (if e.scenario.totalDurationMs ≤ e.elapsedAt now then .complete else e.state.phase)
    ∧ (e.tickMain now).1.startTimeMs = e.startTimeMs
    ∧ (e.tickMain now).1.pausedAtMs = e.pausedAtMs
    ∧ (e.tickMain now).1.scenario = e.scenario
    ∧ (e.tickMain now).1.state.totalDurationMs = e.state.totalDurationMs
    ∧ (e.tickMain now).1.microPauseDurationMs = e.microPauseDurationMs
    ∧ (e.tickMain now).2 =
        (dueNow (e.elapsedAt now) e.scheduled).flatMap (fun s => fireEventOuts s.event)
          ++ [Callback.onProgress (e.elapsedAt now) e.scenario.totalDurationMs]
          ++ (if e.scenario.totalDurationMs ≤ e.elapsedAt now then [Callback.onComplete] else []) := by
  obtain ⟨p1, p2, p3, p4, p5, p6, p7, p8, p9⟩ :=
    fireDue_pres { e with state := { e.state with elapsedMs := e.elapsedAt now } } now
      (e.elapsedAt now) e.scheduled
  have hs := fireDue_sched { e with state := { e.state with elapsedMs := e.elapsedAt now } } now
      (e.elapsedAt now) e.scheduled
  have ho := fireDue_outs { e with state := { e.state with elapsedMs := e.elapsedAt now } } now
      (e.elapsedAt now) e.scheduled
  simp only [Engine.tickMain]
  split <;> rename_i hcmp
  · have h' : e.scenario.totalDurationMs ≤ e.elapsedAt now := of_decide_eq_true hcmp
    simp only [if_pos h']
    simp_all
  · have h' : ¬ e.scenario.totalDurationMs ≤ e.elapsedAt now :=
      fun hh => hcmp (decide_eq_true hh)
    simp only [if_neg h']
    simp_all

theorem tick_not_playing (e : Engine) (now : Int) (h : e.state.phase ≠ .playing) :
    e.tick now = (e, []) := by
  simp [Engine.tick, h]

theorem tick_frozen (e : Engine) (now m : Int) (hp : e.state.phase = .playing)
    (hm : e.microPauseStartMs = some m) (hf : now - m < e.microPauseDurationMs) :
    e.tick now = ({ e with rafId := true }, []) := by
  simp [Engine.tick, hp, hm, hf]

theorem tick_thaw (e : Engine) (now m : Int) (hp : e.state.phase = .playing)
    (hm : e.microPauseStartMs = some m) (hf : e.microPauseDurationMs ≤ now - m) :
    e.tick now =
      Engine.tickMain
        { e with startTimeMs := some (e.startTimeMs.getD 0 + (now - m)),
                 microPauseStartMs := none } now := by
  simp [Engine.tick, hp, hm, not_lt.mpr hf]

theorem tick_normal (e : Engine) (now : Int) (hp : e.state.phase = .playing)
    (hm : e.microPauseStartMs = none) :
    e.tick now = e.tickMain now := by
  simp [Engine.tick, hp, hm]

theorem play_complete (e : Engine) (now : Int) (h : e.state.phase = .complete) :
    e.play now = (e, []) := by
  simp [Engine.play, h]

theorem play_playing (e : Engine) (now : Int) (h : e.state.phase = .playing) :
    e.play now = (e, []) := by
  simp [Engine.play, h]

theorem play_idle (e : Engine) (now : Int) (h : e.state.phase = .idle) :
    e.play now =
      Engine.tick
        (Engine.resumeTypings
          { e with startTimeMs := some now, pausedAtMs := 0,
                   state := { e.state with phase := .playing } }) now := by
  simp [Engine.play, h]

theorem play_paused (e : Engine) (now : Int) (h : e.state.phase = .paused) :
    e.play now =
      Engine.tick
        (Engine.resumeTypings
          { e with startTimeMs := some (now - e.pausedAtMs),
                   state := { e.state with phase := .playing } }) now := by
  simp [Engine.play, h]

theorem pause_not_playing (e : Engine) (now : Int) (h : e.state.phase ≠ .playing) :
    e.pause now = e := by
  simp [Engine.pause, h]

theorem pause_spec (e : Engine) (now : Int) (h : e.state.phase = .playing) :
    e.pause now =
      { e with state := { e.state with phase := .paused },
               pausedAtMs := e.elapsedAt now,
               rafId := false,
               activeTypings := e.activeTypings.map
                 (fun kt => (kt.1, { kt.2 with intervalId := false })) } := by
  simp only [Engine.pause, h]
  rfl

/-! ## Concrete fixtures used by witnesses and counterexamples -/

def msg0 : ChatMessage :=
  { panel := .left, sender := .user, name := "n", text := "", delayMs := 0 }

def msgAB : ChatMessage :=
  { panel := .left, sender := .user, name := "n", text := "ab", delayMs := 0 }

def msgX : ChatMessage :=
  { panel := .right, sender := .bot, name := "n", text := "x", delayMs := 5 }

def scn0 : Scenario :=
  { id := "s", title := "t", totalDurationMs := 10, events := [] }

def card0 : ProtocolCard :=
  { id := "c", stepLabel := "s", title := "t", lines := [], isError := true, delayMs := 0 }

/-! ## C9: word-granularity typing on the empty message -/

/-- **C9.** In the word-granularity typing engine, an empty message text
yields an empty word-end list; `_startTyping` reads `wordEnds[0]` from that
empty list with no bounds guard, so the initial chat-reveal callback
carries an out-of-bounds (`undefined`, modelled `none`) cursor; the
completion callback then fires immediately and no typing session is
created (the engine state is unchanged). -/
theorem c9_empty_text_word_typing (msg : ChatMessage) (e : Engine)
    (htext : msg.text = "") :
    computeWordEnds msg.text = []
    ∧ e.startTyping msg =
        (e, [Callback.onChatMessage msg none 0, Callback.onChatMessageComplete msg]) := by
  have h0 : computeWordEnds msg.text = [] := by rw [htext]; rfl
  have h1 : computeWordEnds "" = [] := rfl
  refine ⟨h0, ?_⟩
  simp [Engine.startTyping, htext, h1]

/-- Witness for C9 at a concrete empty-text message and fresh engine. -/
theorem c9_empty_text_word_typing_witness :
    computeWordEnds msg0.text = []
    ∧ (Engine.init scn0).startTyping msg0 =
        (Engine.init scn0,
         [Callback.onChatMessage msg0 none 0, Callback.onChatMessageComplete msg0]) :=
  c9_empty_text_word_typing msg0 (Engine.init scn0) rfl

/-! ## C10: character-granularity typing cursor range -/

theorem charTypingRun_cursor_le (fuel : Nat) (s : CharSession)
    (hci : s.charIndex ≤ s.msg.text.length - 1) :
    ∀ m ci tot, Callback.onChatMessage m ci tot ∈ charTypingRun fuel s →
      ∃ c, ci = some c ∧ c ≤ s.msg.text.length - 1 := by
  induction fuel generalizing s with
  | zero => intro m ci tot h; simp [charTypingRun] at h
  | succ fuel ih =>
    intro m ci tot h
    simp only [charTypingRun, charTypingTick] at h
    by_cases hend : s.msg.text.length ≤ s.charIndex + 1
    · rw [if_pos hend] at h
      simp only [List.mem_cons, List.mem_singleton] at h
      rcases h with h | h | h
      · simp only [Callback.onChatMessage.injEq] at h
        exact ⟨s.charIndex, h.2.1, hci⟩
      · simp at h
      · simp at h
    · rw [if_neg hend] at h
      simp only [List.cons_append, List.nil_append, List.mem_cons] at h
      rcases h with h | h
      · simp only [Callback.onChatMessage.injEq] at h
        exact ⟨s.charIndex, h.2.1, hci⟩
      · have hb : ({ s with charIndex := s.charIndex + 1 } : CharSession).charIndex ≤
            ({ s with charIndex := s.charIndex + 1 } : CharSession).msg.text.length - 1 := by
          show s.charIndex + 1 ≤ s.msg.text.length - 1
          omega
        exact ih { s with charIndex := s.charIndex + 1 } hb m ci tot h

/-- **C10.** In the character-granularity typing engine, for a message of
length `n ≥ 2` every chat-reveal callback of the session reports a cursor
in `[0, n − 1]`; for a message of length exactly 1, the trace is reveal 0,
then a final reveal at cursor 1 = n (one past the last valid index),
then completion. -/
theorem c10_char_typing_cursor_range (msg : ChatMessage) :
    (2 ≤ msg.text.length →
      ∀ m ci tot, Callback.onChatMessage m ci tot ∈ charTrace msg →
        ∃ c, ci = some c ∧ c ≤ msg.text.length - 1)
    ∧ (msg.text.length = 1 →
        charTrace msg =
          [Callback.onChatMessage msg (some 0) 1,
           Callback.onChatMessage msg (some 1) 1,
           Callback.onChatMessageComplete msg]) := by
  constructor
  · intro hn m ci tot h
    simp only [charTrace, charTypingStart, List.cons_append, List.nil_append,
      List.mem_cons] at h
    rcases h with h | h
    · simp only [Callback.onChatMessage.injEq] at h
      exact ⟨0, h.2.1, by omega⟩
    · exact charTypingRun_cursor_le (msg.text.length + 1)
        { msg := msg, charIndex := 1 } (by show 1 ≤ msg.text.length - 1; omega) m ci tot h
  · intro hn
    simp [charTrace, charTypingStart, charTypingRun, charTypingTick, hn]

/-- Witness for C10: the range bound at the two-character message "ab" and
the length-one trace at the message "x". -/
theorem c10_char_typing_cursor_range_witness :
    (∀ m ci tot, Callback.onChatMessage m ci tot ∈ charTrace msgAB →
      ∃ c, ci = some c ∧ c ≤ msgAB.text.length - 1)
    ∧ charTrace msgX =
        [Callback.onChatMessage msgX (some 0) 1,
         Callback.onChatMessage msgX (some 1) 1,
         Callback.onChatMessageComplete msgX] :=
  ⟨(c10_char_typing_cursor_range msgAB).1 (by decide),
   (c10_char_typing_cursor_range msgX).2 (by decide)⟩

/-! ## C2: the error-card micro-freeze -/

theorem fireDue_micro_of_no_error (e : Engine) (now el : Int) (l : List ScheduledEvent)
    (h : ∀ s ∈ dueNow el l, isErrorCard s.event = false) :
    (e.fireDue now el l).1.microPauseStartMs = e.microPauseStartMs := by
  induction l generalizing e with
  | nil => simp [Engine.fireDue]
  | cons s rest ih =>
    have hrest : ∀ x ∈ dueNow el rest, isErrorCard x.event = false := by
      intro x hx
      have hx' := List.mem_filter.mp hx
      exact h x (List.mem_filter.mpr ⟨List.mem_cons_of_mem _ hx'.1, hx'.2⟩)
    simp only [Engine.fireDue]
    split
    · rename_i hdue
      have hs := h s (List.mem_filter.mpr ⟨List.mem_cons_self _ _, hdue⟩)
      have h1 := fireEvent_micro e now s.event
      rw [hs] at h1
      simp only [Bool.false_eq_true, if_false] at h1
      exact (ih (e.fireEvent now s.event).1 hrest).trans h1
    · exact ih e hrest

/-- Per-step preservation of the fixed dwell duration field. -/
theorem step_dur (e : Engine) (c : Cmd) :
    ((e.step c).1).microPauseDurationMs = e.microPauseDurationMs := by
  cases c with
  | play now =>
    simp only [Engine.step, Engine.play]
    split
    · rfl
    · split
      · rfl
      · split <;>
        · simp only [Engine.tick]
          split
          · rfl
          · split
            · split
              · rfl
              · exact (tickMain_spec _ now).2.2.2.2.2.2.2.1
            · exact (tickMain_spec _ now).2.2.2.2.2.2.2.1
  | pause now =>
    simp only [Engine.step, Engine.pause]
    split <;> rfl
  | tick now =>
    simp only [Engine.step, Engine.tick]
    split
    · rfl
    · split
      · split
        · rfl
        · exact (tickMain_spec _ now).2.2.2.2.2.2.2.1
      · exact (tickMain_spec _ now).2.2.2.2.2.2.2.1
  | typingTick key =>
    simp only [Engine.step, Engine.typingStep]
    split
    · rfl
    · split
      · rfl
      · split <;> rfl
  | reset => rfl

/-- **C2.** Firing an error-flagged ProtocolCard starts a micro-freeze of
fixed dwell 800 ms (the dwell field is 800 from construction and never
modified by any operation).  While the freeze is active the tick loop
keeps running (the next tick stays scheduled) but the engine state is
otherwise untouched: elapsed does not advance, no events fire, no
callbacks are issued.  Once the dwell has elapsed in wall-clock terms, the
clock origin is shifted forward by exactly the observed frozen wall-clock
span `now − m` (not the nominal 800), so the elapsed time seen by the
thawing tick is exactly `m − st`, the elapsed value at which the freeze
began — no time is double-counted or lost. -/
theorem c2_micro_freeze (e : Engine) (now m st : Int) (card : ProtocolCard) :
    (card.isError = true →
      (e.fireEvent now (.protocolCard card)).1.microPauseStartMs = some now
      ∧ (e.fireEvent now (.protocolCard card)).2 = [Callback.onProtocolCard card])
    ∧ (∀ scn, (Engine.init scn).microPauseDurationMs = 800)
    ∧ (∀ c, ((e.step c).1).microPauseDurationMs = e.microPauseDurationMs)
    ∧ (e.state.phase = .playing → e.microPauseStartMs = some m →
        now - m < e.microPauseDurationMs →
        e.tick now = ({ e with rafId := true }, []))
    ∧ (e.state.phase = .playing → e.microPauseStartMs = some m →
        e.startTimeMs = some st → e.microPauseDurationMs ≤ now - m →
        (e.tick now).1.startTimeMs = some (st + (now - m))
        ∧ (e.tick now).1.state.elapsedMs = m - st
        ∧ ((∀ s ∈ dueNow (m - st) e.scheduled, isErrorCard s.event = false) →
            (e.tick now).1.microPauseStartMs = none)) := by
  refine ⟨?_, fun _ => rfl, step_dur e, ?_, ?_⟩
  · intro herr
    constructor
    · rw [fireEvent_micro]
      simp [isErrorCard, herr]
    · rw [fireEvent_outs]
      simp [fireEventOuts]
  · intro hp hm hf
    exact tick_frozen e now m hp hm hf
  · intro hp hm hst hf
    rw [tick_thaw e now m hp hm hf]
    set e' : Engine :=
      { e with startTimeMs := some (e.startTimeMs.getD 0 + (now - m)),
               microPauseStartMs := none } with he'
    have hel : e'.elapsedAt now = m - st := by
      simp [Engine.elapsedAt, he', hst]
      omega
    have hsp := tickMain_spec e' now
    refine ⟨?_, ?_, ?_⟩
    · rw [hsp.2.2.2.1]
      simp [he', hst]
    · rw [hsp.2.1, hel]
    · intro hnoerr
      have hside : ∀ s ∈ dueNow (e'.elapsedAt now) e'.scheduled, isErrorCard s.event = false := by
        rw [hel]
        exact hnoerr
      simp only [Engine.tickMain]
      split
      · exact fireDue_micro_of_no_error _ now (e'.elapsedAt now) e'.scheduled hside
      · exact fireDue_micro_of_no_error _ now (e'.elapsedAt now) e'.scheduled hside

/-- Witness for C2: a concrete playing engine frozen at `m = 5` with clock
origin 0, dwell 800, probed at instants 100 (frozen) and 1000 (thaw). -/
theorem c2_micro_freeze_witness :
    (let e : Engine :=
      { scenario := scn0
        state := { phase := .playing, currentPhase := .preSession, elapsedMs := 5,
                   totalDurationMs := 10 }
        startTimeMs := some 0
        pausedAtMs := 0
        rafId := true
        scheduled := []
        activeTypings := []
        microPauseStartMs := some 5
        microPauseDurationMs := 800 }
     e.tick 100 = ({ e with rafId := true }, [])
     ∧ (e.tick 1000).1.startTimeMs = some (0 + (1000 - 5))
     ∧ (e.tick 1000).1.state.elapsedMs = 5 - 0
     ∧ (e.tick 1000).1.microPauseStartMs = none) := by
  refine ⟨?_, ?_, ?_, ?_⟩
  · exact (c2_micro_freeze _ 100 5 0 card0).2.2.2.1 rfl rfl (by decide)
  · exact ((c2_micro_freeze _ 1000 5 0 card0).2.2.2.2 rfl rfl rfl (by decide)).1
  · exact ((c2_micro_freeze _ 1000 5 0 card0).2.2.2.2 rfl rfl rfl (by decide)).2.1
  · exact ((c2_micro_freeze _ 1000 5 0 card0).2.2.2.2 rfl rfl rfl (by decide)).2.2 (by decide)

/-! ## C3: pause/resume continuity -/

theorem fireEventOuts_no_progress (ev : ScenarioEvent) (el tot : Int) :
    Callback.onProgress el tot ∉ fireEventOuts ev := by
  cases ev <;> simp only [fireEventOuts]
  · split <;> simp
  · simp
  · simp
  · simp

theorem fireEventOuts_no_complete (ev : ScenarioEvent) :
    Callback.onComplete ∉ fireEventOuts ev := by
  cases ev <;> simp only [fireEventOuts]
  · split <;> simp
  · simp
  · simp
  · simp

/-- **C3 (amended).** Provided no micro-freeze is active in the paused
state (`microPauseStartMs = none`), resuming from a pause recorded at
elapsed `E = pausedAtMs` re-establishes the clock origin as `now − E`, so
the tick embedded in `play()` computes elapsed exactly `E` regardless of
how much wall-clock time passed while paused: the resumed engine's elapsed
equals `E`, a progress report with elapsed `E` is issued, and every
progress report of that step carries elapsed `E` — elapsed never jumps
ahead by the pause duration. Without the proviso the claim fails; see the
counterexample. -/
theorem c3_pause_resume_continuity (e : Engine) (now : Int)
    (hp : e.state.phase = .paused) (hm : e.microPauseStartMs = none) :
    (e.play now).1.startTimeMs = some (now - e.pausedAtMs)
    ∧ (e.play now).1.state.elapsedMs = e.pausedAtMs
    ∧ Callback.onProgress e.pausedAtMs e.scenario.totalDurationMs ∈ (e.play now).2
    ∧ (∀ el tot, Callback.onProgress el tot ∈ (e.play now).2 → el = e.pausedAtMs) := by
  rw [play_paused e now hp]
  set e2 : Engine :=
    Engine.resumeTypings
      { e with startTimeMs := some (now - e.pausedAtMs),
               state := { e.state with phase := .playing } } with he2
  have h2p : e2.state.phase = .playing := rfl
  have h2m : e2.microPauseStartMs = none := hm
  have h2st : e2.startTimeMs = some (now - e.pausedAtMs) := rfl
  have h2scn : e2.scenario = e.scenario := rfl
  rw [tick_normal e2 now h2p h2m]
  have hel : e2.elapsedAt now = e.pausedAtMs := by
    simp [Engine.elapsedAt, h2st]
  have hsp := tickMain_spec e2 now
  refine ⟨?_, ?_, ?_, ?_⟩
  · rw [hsp.2.2.2.1, h2st]
  · rw [hsp.2.1, hel]
  · rw [hsp.2.2.2.2.2.2.2.2, hel, h2scn]
    simp
  · intro el tot hmem
    rw [hsp.2.2.2.2.2.2.2.2, hel] at hmem
    simp only [List.append_assoc, List.mem_append] at hmem
    rcases hmem with hmem | hmem
    · exfalso
      simp only [List.mem_flatMap] at hmem
      obtain ⟨s, _, hs⟩ := hmem
      exact fireEventOuts_no_progress s.event el tot hs
    · simp only [List.mem_append, List.mem_singleton] at hmem
      rcases hmem with hmem | hmem
      · exact ((Callback.onProgress.injEq _ _ _ _).mp hmem).1
      · split at hmem <;> simp at hmem

/-- Witness for C3: a concrete engine paused at elapsed 7, resumed at
wall-clock instant 1000. -/
theorem c3_pause_resume_continuity_witness :
    (let e : Engine :=
      { scenario := scn0
        state := { phase := .paused, currentPhase := .preSession, elapsedMs := 7,
                   totalDurationMs := 10 }
        startTimeMs := some 0
        pausedAtMs := 7
        rafId := false
        scheduled := []
        activeTypings := []
        microPauseStartMs := none
        microPauseDurationMs := 800 }
     (e.play 1000).1.startTimeMs = some (1000 - e.pausedAtMs)
     ∧ (e.play 1000).1.state.elapsedMs = e.pausedAtMs
     ∧ Callback.onProgress e.pausedAtMs e.scenario.totalDurationMs ∈ (e.play 1000).2
     ∧ (∀ el tot, Callback.onProgress el tot ∈ (e.play 1000).2 → el = e.pausedAtMs)) :=
  c3_pause_resume_continuity _ 1000 rfl rfl

def scnE : Scenario :=
  { id := "e", title := "e", totalDurationMs := 100000,
    events := [ScenarioEvent.protocolCard card0] }

/-- **C3 (counterexample).** The continuity claim quantifies over *every*
playing state, but pausing while a micro-freeze is active breaks it:
`pause()` records `pausedAtMs = _elapsed()`, which includes the frozen
span, and the stale `microPauseStartMs` survives the pause. On resume the
first tick sees a huge "frozen" duration, shifts the re-established clock
origin forward by it, and reports an elapsed that differs from the
recorded pause offset by the entire wall-clock pause gap (here it even
goes negative). Concretely: an error card fires at wall time 0 starting a
freeze; pausing at wall time 200 records offset 200 with the freeze still
stored; resuming at wall time 10000 makes the embedded tick report
elapsed −9800, not ≈ 200. -/
theorem c3_counterexample_pause_during_freeze :
    (Engine.runE (Engine.init scnE) [Cmd.play 0, Cmd.pause 200]).state.phase
        = LifecyclePhase.paused
    ∧ (Engine.runE (Engine.init scnE) [Cmd.play 0, Cmd.pause 200]).pausedAtMs = 200
    ∧ (Engine.runE (Engine.init scnE) [Cmd.play 0, Cmd.pause 200]).microPauseStartMs
        = some 0
    ∧ ((Engine.runE (Engine.init scnE) [Cmd.play 0, Cmd.pause 200]).play 10000).2
        = [Callback.onProgress (-9800) 100000]
    ∧ ¬((-9800 : Int) = 200) := by decide

/-! ## Per-step shape lemmas -/

def isPlayCmd : Cmd → Bool
  | .play _ => true
  | _ => false

theorem typingStep_not_playing (e : Engine) (k : String) (h : e.state.phase ≠ .playing) :
    e.typingStep k = (e, []) := by
  simp [Engine.typingStep, h]

theorem typingStep_no_session (e : Engine) (k : String)
    (h : mapLookup k e.activeTypings = none) : e.typingStep k = (e, []) := by
  by_cases hp : e.state.phase = .playing
  · simp [Engine.typingStep, hp, h]
  · simp [Engine.typingStep, hp]

/-- A typing step only ever touches the session map. -/
theorem typingStep_shape (e : Engine) (k : String) :
    ∃ at', (e.typingStep k).1 = { e with activeTypings := at' } := by
  unfold Engine.typingStep
  split
  · exact ⟨e.activeTypings, rfl⟩
  · split
    · exact ⟨e.activeTypings, rfl⟩
    · dsimp only
      split
      · exact ⟨mapErase k e.activeTypings, rfl⟩
      · exact ⟨mapSet k _ e.activeTypings, rfl⟩

/-- A tick either leaves the schedule alone or marks exactly the due
unfired entries, the threshold being the elapsed value it stored. -/
theorem tick_sched_shape (e : Engine) (now : Int) :
    (e.tick now).1.scheduled = markDue ((e.tick now).1.state.elapsedMs) e.scheduled
    ∨ (e.tick now).1.scheduled = e.scheduled := by
  unfold Engine.tick
  split
  · exact Or.inr rfl
  · split
    · rename_i m hm
      dsimp only
      split
      · exact Or.inr rfl
      · left
        have hsp := tickMain_spec
          { e with startTimeMs := some (e.startTimeMs.getD 0 + (now - m)),
                   microPauseStartMs := none } now
        rw [hsp.1, hsp.2.1]
    · left
      have hsp := tickMain_spec e now
      rw [hsp.1, hsp.2.1]

theorem resumeTypings_fields (e : Engine) :
    (e.resumeTypings).scheduled = e.scheduled
    ∧ (e.resumeTypings).scenario = e.scenario
    ∧ (e.resumeTypings).state = e.state
    ∧ (e.resumeTypings).microPauseStartMs = e.microPauseStartMs
    ∧ (e.resumeTypings).microPauseDurationMs = e.microPauseDurationMs :=
  ⟨rfl, rfl, rfl, rfl, rfl⟩

/-- `play()` is either a no-op or one tick of a state that differs only in
clock origin, lifecycle phase and re-armed typing sessions. -/
theorem play_shape (e : Engine) (now : Int) :
    e.play now = (e, [])
    ∨ (∃ e2 : Engine, e2.scheduled = e.scheduled ∧ e2.scenario = e.scenario
        ∧ e2.microPauseStartMs = e.microPauseStartMs
        ∧ e2.microPauseDurationMs = e.microPauseDurationMs
        ∧ e2.state.totalDurationMs = e.state.totalDurationMs
        ∧ e2.state.phase = .playing
        ∧ e.play now = e2.tick now) := by
  by_cases hc1 : e.state.phase = .complete
  · exact Or.inl (play_complete e now hc1)
  · by_cases hc2 : e.state.phase = .playing
    · exact Or.inl (play_playing e now hc2)
    · by_cases hc3 : e.state.phase = .idle
      · exact Or.inr ⟨Engine.resumeTypings
          { e with startTimeMs := some now, pausedAtMs := 0,
                   state := { e.state with phase := .playing } },
          rfl, rfl, rfl, rfl, rfl, rfl, play_idle e now hc3⟩
      · have hc4 : e.state.phase = .paused := by
          cases hph : e.state.phase <;> simp_all
        exact Or.inr ⟨Engine.resumeTypings
          { e with startTimeMs := some (now - e.pausedAtMs),
                   state := { e.state with phase := .playing } },
          rfl, rfl, rfl, rfl, rfl, rfl, play_paused e now hc4⟩

/-- Any non-reset step either leaves the schedule alone or marks exactly
the due unfired entries at the elapsed value it stored. -/
theorem step_sched (e : Engine) (c : Cmd) (hc : c ≠ Cmd.reset) :
    (e.step c).1.scheduled = markDue ((e.step c).1.state.elapsedMs) e.scheduled
    ∨ (e.step c).1.scheduled = e.scheduled := by
  cases c with
  | play now =>
    show (e.play now).1.scheduled = markDue ((e.play now).1.state.elapsedMs) e.scheduled
      ∨ (e.play now).1.scheduled = e.scheduled
    rcases play_shape e now with h | ⟨e2, hsch, _, _, _, _, _, heq⟩
    · rw [h]
      exact Or.inr rfl
    · rw [heq]
      rcases tick_sched_shape e2 now with h2 | h2
      · left
        rw [h2, hsch]
      · right
        rw [h2, hsch]
  | pause now => exact Or.inr (by
      show (e.pause now).scheduled = e.scheduled
      unfold Engine.pause
      split <;> rfl)
  | tick now => exact tick_sched_shape e now
  | typingTick k =>
    obtain ⟨at', hat⟩ := typingStep_shape e k
    right
    show (e.typingStep k).1.scheduled = e.scheduled
    rw [hat]
  | reset => exact absurd rfl hc

theorem tick_scenario (e : Engine) (now : Int) : (e.tick now).1.scenario = e.scenario := by
  unfold Engine.tick
  split
  · rfl
  · split
    · rename_i m hm
      dsimp only
      split
      · rfl
      · exact (tickMain_spec _ now).2.2.2.2.2.1
    · exact (tickMain_spec _ now).2.2.2.2.2.1

/-- Every step (including reset) preserves the scenario. -/
theorem step_scenario (e : Engine) (c : Cmd) : (e.step c).1.scenario = e.scenario := by
  cases c with
  | play now =>
    show (e.play now).1.scenario = e.scenario
    rcases play_shape e now with h | ⟨e2, _, hscn, _, _, _, _, heq⟩
    · rw [h]
    · rw [heq, tick_scenario e2 now, hscn]
  | pause now =>
    show (e.pause now).scenario = e.scenario
    unfold Engine.pause
    split <;> rfl
  | tick now => exact tick_scenario e now
  | typingTick k =>
    obtain ⟨at', hat⟩ := typingStep_shape e k
    show (e.typingStep k).1.scenario = e.scenario
    rw [hat]
  | reset => rfl

theorem runE_scenario (e : Engine) (cmds : List Cmd) :
    (e.runE cmds).scenario = e.scenario := by
  induction cmds generalizing e with
  | nil => rfl
  | cons c cs ih => exact (ih (e.step c).1).trans (step_scenario e c)

/-! ## C6: cancellation and stale-callback safety -/

theorem runOuts_no_play_of_idle (cmds : List Cmd) (e0 : Engine)
    (hid : e0.state.phase = .idle) (hnp : ∀ c ∈ cmds, isPlayCmd c = false) :
    Engine.runOuts e0 cmds = [] := by
  induction cmds generalizing e0 with
  | nil => rfl
  | cons c cs ih =>
    have hnpl : (e0.state.phase = .playing) = False := by
      simp [hid]
    have hstep : (e0.step c).1.state.phase = .idle ∧ (e0.step c).2 = [] := by
      cases c with
      | play t => exact absurd (hnp _ (List.mem_cons_self _ _)) (by simp [isPlayCmd])
      | pause t =>
        rw [Engine.step, pause_not_playing e0 t (by simp [hid])]
        exact ⟨hid, rfl⟩
      | tick t =>
        rw [Engine.step, tick_not_playing e0 t (by simp [hid])]
        exact ⟨hid, rfl⟩
      | typingTick k =>
        rw [Engine.step, typingStep_not_playing e0 k (by simp [hid])]
        exact ⟨hid, rfl⟩
      | reset => exact ⟨rfl, rfl⟩
    rw [Engine.runOuts, hstep.2, List.nil_append]
    exact ih (e0.step c).1 hstep.1 (fun c' h => hnp c' (List.mem_cons_of_mem _ h))

/-- **C6.** `pause()` (from playing) and `reset()` cancel every outstanding
scheduled callback synchronously: the returned state has no pending tick
(`rafId = false`) and no typing session with a pending step; after
`reset()` the session map is empty and, until the next `play()`, no
command of any kind produces a callback; a stale tick or typing-step
callback arriving when the engine is not playing, or for a session that no
longer exists, is a pure no-op. -/
theorem c6_cancellation (e : Engine) (now : Int) (k : String) :
    (e.state.phase = .playing →
      (e.pause now).rafId = false
      ∧ ∀ kt ∈ (e.pause now).activeTypings, kt.2.intervalId = false)
    ∧ (e.reset.rafId = false ∧ e.reset.activeTypings = [])
    ∧ (e.state.phase ≠ .playing → e.tick now = (e, []))
    ∧ (e.state.phase ≠ .playing → e.typingStep k = (e, []))
    ∧ (mapLookup k e.activeTypings = none → e.typingStep k = (e, []))
    ∧ (∀ cmds : List Cmd, (∀ c ∈ cmds, isPlayCmd c = false) →
        Engine.runOuts e.reset cmds = []) := by
  refine ⟨?_, ⟨rfl, rfl⟩, tick_not_playing e now, typingStep_not_playing e k,
    typingStep_no_session e k, ?_⟩
  · intro hp
    rw [pause_spec e now hp]
    refine ⟨rfl, ?_⟩
    intro kt hkt
    simp only [List.mem_map] at hkt
    obtain ⟨kt', _, rfl⟩ := hkt
    rfl
  · intro cmds hnp
    exact runOuts_no_play_of_idle cmds e.reset rfl hnp

/-- Witness for C6 at a concrete playing engine with one armed session. -/
theorem c6_cancellation_witness :
    (let t0 : ActiveTyping :=
      { msg := msgAB, text := "ab", charIndex := some 0, wordEnds := [0, 1],
        wordIndex := 1, intervalId := true }
     let e : Engine :=
      { scenario := scn0
        state := { phase := .playing, currentPhase := .preSession, elapsedMs := 0,
                   totalDurationMs := 10 }
        startTimeMs := some 0
        pausedAtMs := 0
        rafId := true
        scheduled := []
        activeTypings := [("left-0", t0)]
        microPauseStartMs := none
        microPauseDurationMs := 800 }
     ((e.pause 3).rafId = false ∧ ∀ kt ∈ (e.pause 3).activeTypings, kt.2.intervalId = false)
     ∧ (e.reset.rafId = false ∧ e.reset.activeTypings = [])
     ∧ (mapLookup "gone" e.activeTypings = none → e.typingStep "gone" = (e, []))
     ∧ Engine.runOuts e.reset [Cmd.tick 50, Cmd.typingTick "left-0", Cmd.pause 60] = []) := by
  refine ⟨(c6_cancellation _ 3 "gone").1 rfl, (c6_cancellation _ 3 "gone").2.1,
    (c6_cancellation _ 3 "gone").2.2.2.2.1, ?_⟩
  exact (c6_cancellation _ 3 "gone").2.2.2.2.2 _ (by decide)

/-! ## Ordering and membership of the built schedule -/

theorem mem_insertByFireAt (s x : ScheduledEvent) (l : List ScheduledEvent) :
    x ∈ insertByFireAt s l ↔ x = s ∨ x ∈ l := by
  induction l with
  | nil => simp [insertByFireAt]
  | cons t rest ih =>
    simp only [insertByFireAt]
    split
    · simp only [List.mem_cons, ih]
      tauto
    · simp only [List.mem_cons]

theorem pairwise_insertByFireAt (s : ScheduledEvent) (l : List ScheduledEvent)
    (h : List.Pairwise (fun a b : ScheduledEvent => a.fireAtMs ≤ b.fireAtMs) l) :
    List.Pairwise (fun a b : ScheduledEvent => a.fireAtMs ≤ b.fireAtMs)
      (insertByFireAt s l) := by
  induction l with
  | nil => simp [insertByFireAt]
  | cons t rest ih =>
    rw [List.pairwise_cons] at h
    simp only [insertByFireAt]
    split
    · rename_i hts
      rw [List.pairwise_cons]
      constructor
      · intro x hx
        rcases (mem_insertByFireAt s x rest).mp hx with rfl | hx'
        · exact le_of_lt hts
        · exact h.1 x hx'
      · exact ih h.2
    · rename_i hts
      have hst : s.fireAtMs ≤ t.fireAtMs := le_of_not_lt hts
      rw [List.pairwise_cons]
      constructor
      · intro x hx
        rcases List.mem_cons.mp hx with rfl | hx'
        · exact hst
        · exact le_trans hst (h.1 x hx')
      · rw [List.pairwise_cons]
        exact ⟨h.1, h.2⟩

theorem sortByFireAt_sorted (l : List ScheduledEvent) :
    List.Pairwise (fun a b : ScheduledEvent => a.fireAtMs ≤ b.fireAtMs) (sortByFireAt l) := by
  induction l with
  | nil => simp [sortByFireAt]
  | cons s rest ih => exact pairwise_insertByFireAt s _ ih

theorem mem_sortByFireAt (x : ScheduledEvent) (l : List ScheduledEvent) :
    x ∈ sortByFireAt l ↔ x ∈ l := by
  induction l with
  | nil => simp [sortByFireAt]
  | cons s rest ih =>
    simp only [sortByFireAt, mem_insertByFireAt, List.mem_cons, ih]

theorem buildSchedule_sorted (scn : Scenario) :
    List.Pairwise (fun a b : ScheduledEvent => a.fireAtMs ≤ b.fireAtMs) (buildSchedule scn) :=
  sortByFireAt_sorted _

/-! ## C7: reset restores the initial state -/

def clearFired (s : ScheduledEvent) : ScheduledEvent := { s with fired := false }

theorem markDue_clearFired (el : Int) (l : List ScheduledEvent) :
    (markDue el l).map clearFired = l.map clearFired := by
  induction l with
  | nil => rfl
  | cons s rest ih =>
    simp only [markDue, List.map_cons] at ih ⊢
    split
    · rw [ih]
      rfl
    · rw [ih]

theorem step_clearFired (e : Engine) (c : Cmd) :
    ((e.step c).1).scheduled.map clearFired = e.scheduled.map clearFired := by
  by_cases hc : c = Cmd.reset
  · subst hc
    show (e.scheduled.map (fun s => { s with fired := false })).map clearFired
      = e.scheduled.map clearFired
    rw [List.map_map]
    rfl
  · rcases step_sched e c hc with h | h
    · rw [h, markDue_clearFired]
    · rw [h]

theorem runE_clearFired (e : Engine) (cmds : List Cmd) :
    (e.runE cmds).scheduled.map clearFired = e.scheduled.map clearFired := by
  induction cmds generalizing e with
  | nil => rfl
  | cons c cs ih => exact (ih (e.step c).1).trans (step_clearFired e c)

theorem runE_dur (e : Engine) (cmds : List Cmd) :
    (e.runE cmds).microPauseDurationMs = e.microPauseDurationMs := by
  induction cmds generalizing e with
  | nil => rfl
  | cons c cs ih => exact (ih (e.step c).1).trans (step_dur e c)

theorem buildSchedule_unfired (scn : Scenario) : ∀ s ∈ buildSchedule scn, s.fired = false := by
  intro s hs
  have hm := (mem_sortByFireAt s _).mp hs
  simp only [List.mem_map] at hm
  obtain ⟨ev, _, rfl⟩ := hm
  rfl

theorem map_clearFired_of_unfired (l : List ScheduledEvent) (h : ∀ s ∈ l, s.fired = false) :
    l.map clearFired = l := by
  induction l with
  | nil => rfl
  | cons s rest ih =>
    simp only [List.map_cons]
    have hs := h s (List.mem_cons_self _ _)
    have hcl : clearFired s = s := by
      cases s with
      | mk a b f =>
        simp only at hs
        rw [hs]
        rfl
    rw [hcl, ih (fun x hx => h x (List.mem_cons_of_mem _ hx))]

/-- **C7.** After `reset()` from any reachable state, the engine is exactly
the freshly constructed engine again: `getState()` reports lifecycle phase
`idle`, narrative phase `pre-session`, elapsed 0 and the unchanged total
duration; every schedule entry's fired flag is cleared; and any subsequent
run (e.g. playing again) traverses exactly the same states and emits
exactly the same callbacks as a fresh engine would. -/
theorem c7_reset_restores_initial (scn : Scenario) (cmds cmds2 : List Cmd) :
    (Engine.runE (Engine.init scn) cmds).reset = Engine.init scn
    ∧ ((Engine.runE (Engine.init scn) cmds).reset).getState =
        { phase := .idle, currentPhase := .preSession, elapsedMs := 0,
          totalDurationMs := scn.totalDurationMs }
    ∧ (∀ s ∈ ((Engine.runE (Engine.init scn) cmds).reset).scheduled, s.fired = false)
    ∧ Engine.runE ((Engine.runE (Engine.init scn) cmds).reset) cmds2
        = Engine.runE (Engine.init scn) cmds2
    ∧ Engine.runOuts ((Engine.runE (Engine.init scn) cmds).reset) cmds2
        = Engine.runOuts (Engine.init scn) cmds2 := by
  have hscn : (Engine.runE (Engine.init scn) cmds).scenario = scn :=
    runE_scenario (Engine.init scn) cmds
  have hdur : (Engine.runE (Engine.init scn) cmds).microPauseDurationMs = 800 :=
    runE_dur (Engine.init scn) cmds
  have hsch : (Engine.runE (Engine.init scn) cmds).scheduled.map clearFired
      = buildSchedule scn := by
    have h0 := runE_clearFired (Engine.init scn) cmds
    rw [h0]
    exact map_clearFired_of_unfired _ (buildSchedule_unfired scn)
  have hgen : ∀ s : Engine, s.scenario = scn → s.microPauseDurationMs = 800 →
      s.scheduled.map clearFired = buildSchedule scn → s.reset = Engine.init scn := by
    intro s h1 h2 h3
    unfold Engine.reset Engine.init
    rw [Engine.mk.injEq]
    exact ⟨h1, by rw [h1], rfl, rfl, rfl, h3, rfl, rfl, h2⟩
  have hmain : (Engine.runE (Engine.init scn) cmds).reset = Engine.init scn :=
    hgen _ hscn hdur hsch
  refine ⟨hmain, by rw [hmain]; rfl, ?_, by rw [hmain], by rw [hmain]⟩
  rw [hmain]
  exact buildSchedule_unfired scn

/-! ## C8: completion, and no-op misuse handling -/

theorem typingStep_no_onComplete (e : Engine) (k : String) :
    Callback.onComplete ∉ (e.typingStep k).2 := by
  unfold Engine.typingStep
  split
  · simp
  · split
    · simp
    · dsimp only
      split
      · simp
      · simp

theorem tick_count_onComplete (e : Engine) (now : Int) :
    List.count Callback.onComplete (e.tick now).2 ≤ 1
    ∧ (Callback.onComplete ∈ (e.tick now).2 → (e.tick now).1.state.phase = .complete) := by
  by_cases hp : e.state.phase = .playing
  · have hmain : ∀ e' : Engine,
        List.count Callback.onComplete (e'.tickMain now).2 ≤ 1
        ∧ (Callback.onComplete ∈ (e'.tickMain now).2 →
            (e'.tickMain now).1.state.phase = .complete) := by
      intro e'
      have hsp := tickMain_spec e' now
      have hflat : List.count Callback.onComplete
          ((dueNow (e'.elapsedAt now) e'.scheduled).flatMap
            (fun s => fireEventOuts s.event)) = 0 := by
        rw [List.count_eq_zero]
        intro hmem
        simp only [List.mem_flatMap] at hmem
        obtain ⟨s, _, hs⟩ := hmem
        exact fireEventOuts_no_complete s.event hs
      constructor
      · rw [hsp.2.2.2.2.2.2.2.2]
        rw [List.count_append, List.count_append, hflat]
        split <;> simp
      · intro hmem
        rw [hsp.2.2.2.2.2.2.2.2] at hmem
        rw [hsp.2.2.1]
        simp only [List.append_assoc, List.mem_append] at hmem
        rcases hmem with hmem | hmem
        · exact absurd hmem (fun h => by
            have := List.count_eq_zero.mp hflat
            exact this h)
        · simp only [List.mem_append, List.mem_singleton] at hmem
          rcases hmem with hmem | hmem
          · exact absurd hmem (by simp)
          · split at hmem
            · rename_i hcond
              rw [if_pos hcond]
            · simp at hmem
    rcases hmc : e.microPauseStartMs with _ | m
    · rw [tick_normal e now hp hmc]
      exact hmain e
    · by_cases hfr : now - m < e.microPauseDurationMs
      · rw [tick_frozen e now m hp hmc hfr]
        simp
      · rw [tick_thaw e now m hp hmc (not_lt.mp hfr)]
        exact hmain _
  · rw [tick_not_playing e now hp]
    simp

theorem step_count_onComplete (e : Engine) (c : Cmd) :
    List.count Callback.onComplete (e.step c).2 ≤ 1
    ∧ (Callback.onComplete ∈ (e.step c).2 → (e.step c).1.state.phase = .complete) := by
  cases c with
  | play now =>
    show List.count Callback.onComplete (e.play now).2 ≤ 1
      ∧ (Callback.onComplete ∈ (e.play now).2 → (e.play now).1.state.phase = .complete)
    rcases play_shape e now with h | ⟨e2, _, _, _, _, _, _, heq⟩
    · rw [h]
      simp
    · rw [heq]
      exact tick_count_onComplete e2 now
  | pause now => simp [Engine.step]
  | tick now => exact tick_count_onComplete e now
  | typingTick k =>
    constructor
    · rw [Nat.le_one_iff_eq_zero_or_eq_one]
      left
      rw [List.count_eq_zero]
      exact typingStep_no_onComplete e k
    · intro hmem
      exact absurd hmem (typingStep_no_onComplete e k)
  | reset => simp [Engine.step]

theorem step_complete_noop (e : Engine) (c : Cmd) (hph : e.state.phase = .complete)
    (hc : c ≠ Cmd.reset) : e.step c = (e, []) := by
  cases c with
  | play now => exact play_complete e now hph
  | pause now =>
    show (e.pause now, ([] : List Callback)) = (e, [])
    rw [pause_not_playing e now (by simp [hph])]
  | tick now => exact tick_not_playing e now (by simp [hph])
  | typingTick k => exact typingStep_not_playing e k (by simp [hph])
  | reset => exact absurd rfl hc

theorem runOuts_complete_silent (cmds : List Cmd) (e : Engine)
    (hph : e.state.phase = .complete) (hnr : Cmd.reset ∉ cmds) :
    Engine.runOuts e cmds = [] := by
  induction cmds generalizing e with
  | nil => rfl
  | cons c cs ih =>
    have hcr : c ≠ Cmd.reset := fun h => hnr (h ▸ List.mem_cons_self _ _)
    have hstep := step_complete_noop e c hph hcr
    rw [Engine.runOuts, hstep]
    exact ih e hph (fun h => hnr (List.mem_cons_of_mem _ h))

theorem runOuts_onComplete_le_one (cmds : List Cmd) (e : Engine) (hnr : Cmd.reset ∉ cmds) :
    List.count Callback.onComplete (Engine.runOuts e cmds) ≤ 1 := by
  induction cmds generalizing e with
  | nil => simp [Engine.runOuts]
  | cons c cs ih =>
    have hnr' : Cmd.reset ∉ cs := fun h => hnr (List.mem_cons_of_mem _ h)
    rw [Engine.runOuts, List.count_append]
    obtain ⟨hle, hcomp⟩ := step_count_onComplete e c
    by_cases hin : Callback.onComplete ∈ (e.step c).2
    · have hrest : Engine.runOuts (e.step c).1 cs = [] :=
        runOuts_complete_silent cs (e.step c).1 (hcomp hin) hnr'
      rw [hrest]
      simpa using hle
    · have hz : List.count Callback.onComplete (e.step c).2 = 0 :=
        List.count_eq_zero.mpr hin
      rw [hz]
      simpa using ih (e.step c).1 hnr'

/-- **C8.** When elapsed reaches the total duration during a tick, the
engine transitions to the terminal `complete` state and emits the
completion callback exactly once in that tick; over any reset-free run
from construction the completion callback is emitted at most once in
total; once complete, every further command short of `reset()` is a
no-op that emits nothing (in particular `play()` and `pause()`), and
likewise `play()` while already playing and `pause()` while not playing
are silent no-ops, not errors. -/
theorem c8_completion_and_noops (e : Engine) (now : Int) (scn : Scenario) (cmds : List Cmd) :
    (e.state.phase = .playing → e.play now = (e, []))
    ∧ (e.state.phase ≠ .playing → e.pause now = e)
    ∧ (∀ c : Cmd, e.state.phase = .complete → c ≠ Cmd.reset → e.step c = (e, []))
    ∧ (e.state.phase = .playing → e.microPauseStartMs = none →
        e.scenario.totalDurationMs ≤ e.elapsedAt now →
        (e.tick now).1.state.phase = .complete
        ∧ List.count Callback.onComplete (e.tick now).2 = 1)
    ∧ (Cmd.reset ∉ cmds →
        List.count Callback.onComplete (Engine.runOuts (Engine.init scn) cmds) ≤ 1) := by
  refine ⟨play_playing e now, pause_not_playing e now,
    fun c h1 h2 => step_complete_noop e c h1 h2, ?_,
    fun hnr => runOuts_onComplete_le_one cmds _ hnr⟩
  intro hp hm hle
  rw [tick_normal e now hp hm]
  have hsp := tickMain_spec e now
  constructor
  · rw [hsp.2.2.1, if_pos hle]
  · rw [hsp.2.2.2.2.2.2.2.2, if_pos hle]
    rw [List.count_append, List.count_append]
    have hflat : List.count Callback.onComplete
        ((dueNow (e.elapsedAt now) e.scheduled).flatMap (fun s => fireEventOuts s.event)) = 0 := by
      rw [List.count_eq_zero]
      intro hmem
      simp only [List.mem_flatMap] at hmem
      obtain ⟨s, _, hs⟩ := hmem
      exact fireEventOuts_no_complete s.event hs
    rw [hflat]
    simp

def ePlaying : Engine :=
  { scenario := scn0
    state := { phase := .playing, currentPhase := .preSession, elapsedMs := 0,
               totalDurationMs := 10 }
    startTimeMs := some 0
    pausedAtMs := 0
    rafId := true
    scheduled := []
    activeTypings := []
    microPauseStartMs := none
    microPauseDurationMs := 800 }

def eComplete : Engine :=
  { ePlaying with state := { ePlaying.state with phase := .complete } }

/-- Witness for C8: concrete playing and complete engines over `scn0`. -/
theorem c8_completion_and_noops_witness :
    (ePlaying.play 5 = (ePlaying, []))
    ∧ (eComplete.pause 5 = eComplete)
    ∧ (eComplete.step (Cmd.tick 6) = (eComplete, []))
    ∧ ((ePlaying.tick 50).1.state.phase = .complete
       ∧ List.count Callback.onComplete (ePlaying.tick 50).2 = 1)
    ∧ List.count Callback.onComplete
        (Engine.runOuts (Engine.init scn0) [Cmd.play 0, Cmd.tick 15, Cmd.tick 20]) ≤ 1 :=
  ⟨(c8_completion_and_noops ePlaying 5 scn0 []).1 rfl,
   (c8_completion_and_noops eComplete 5 scn0 []).2.1 (by decide),
   (c8_completion_and_noops eComplete 6 scn0 []).2.2.1 (Cmd.tick 6) rfl (by decide),
   (c8_completion_and_noops ePlaying 50 scn0 []).2.2.2.1 rfl rfl (by decide),
   (c8_completion_and_noops ePlaying 0 scn0 [Cmd.play 0, Cmd.tick 15, Cmd.tick 20]).2.2.2.2
     (by decide)⟩


/-! ## C1: exactly-once, in-order event firing -/

theorem runE_append (e : Engine) (l1 l2 : List Cmd) :
    e.runE (l1 ++ l2) = (e.runE l1).runE l2 := by
  induction l1 generalizing e with
  | nil => rfl
  | cons c cs ih =>
    rw [List.cons_append, Engine.runE, Engine.runE]
    exact ih (e.step c).1

theorem stateAt_succ (scn : Scenario) (cmds : List Cmd) (k : Nat) (c : Cmd)
    (hc : cmds[k]? = some c) :
    stateAt scn cmds (k + 1) = ((stateAt scn cmds k).step c).1 := by
  unfold stateAt
  rw [List.take_succ, hc, Option.toList_some, runE_append]
  rfl

theorem stateAt_succ_none (scn : Scenario) (cmds : List Cmd) (k : Nat)
    (hc : cmds[k]? = none) :
    stateAt scn cmds (k + 1) = stateAt scn cmds k := by
  unfold stateAt
  rw [List.take_succ, hc, Option.toList_none, List.append_nil]

theorem markDue_fireAts (el : Int) (l : List ScheduledEvent) :
    (markDue el l).map (fun s => s.fireAtMs) = l.map (fun s => s.fireAtMs) := by
  induction l with
  | nil => rfl
  | cons s rest ih =>
    simp only [markDue, List.map_cons] at ih ⊢
    split
    · rw [ih]
    · rw [ih]

theorem step_fireAts (e : Engine) (c : Cmd) :
    ((e.step c).1).scheduled.map (fun s => s.fireAtMs)
      = e.scheduled.map (fun s => s.fireAtMs) := by
  by_cases hc : c = Cmd.reset
  · subst hc
    show (e.scheduled.map (fun s => { s with fired := false })).map (fun s => s.fireAtMs)
      = e.scheduled.map (fun s => s.fireAtMs)
    rw [List.map_map]
    rfl
  · rcases step_sched e c hc with h | h
    · rw [h, markDue_fireAts]
    · rw [h]

theorem runE_fireAts (e : Engine) (cmds : List Cmd) :
    (e.runE cmds).scheduled.map (fun s => s.fireAtMs)
      = e.scheduled.map (fun s => s.fireAtMs) := by
  induction cmds generalizing e with
  | nil => rfl
  | cons c cs ih => exact (ih (e.step c).1).trans (step_fireAts e c)


theorem stateAt_sorted (scn : Scenario) (cmds : List Cmd) (k : Nat) :
    List.Pairwise (fun a b : ScheduledEvent => a.fireAtMs ≤ b.fireAtMs)
      ((stateAt scn cmds k).scheduled) := by
  have hmap : (stateAt scn cmds k).scheduled.map (fun s => s.fireAtMs)
      = (buildSchedule scn).map (fun s => s.fireAtMs) :=
    runE_fireAts (Engine.init scn) (cmds.take k)
  have hsorted : List.Pairwise (· ≤ ·)
      ((stateAt scn cmds k).scheduled.map (fun s => s.fireAtMs)) := by
    rw [hmap]
    exact List.pairwise_map.mpr (buildSchedule_sorted scn)
  exact List.pairwise_map.mp hsorted

/-- A tick either fires the due unfired entries (emitting their callbacks
in schedule order, then progress, then possibly completion) or leaves the
schedule alone and emits nothing. -/
theorem tick_outs_shape (e : Engine) (now : Int) :
    ((e.tick now).2 =
        (dueNow ((e.tick now).1.state.elapsedMs) e.scheduled).flatMap
          (fun s => fireEventOuts s.event)
        ++ [Callback.onProgress ((e.tick now).1.state.elapsedMs) e.scenario.totalDurationMs]
        ++ (if e.scenario.totalDurationMs ≤ (e.tick now).1.state.elapsedMs then
              [Callback.onComplete] else [])
      ∧ (e.tick now).1.scheduled = markDue ((e.tick now).1.state.elapsedMs) e.scheduled)
    ∨ ((e.tick now).1.scheduled = e.scheduled ∧ (e.tick now).2 = []) := by
  by_cases hp : e.state.phase = .playing
  · rcases hmc : e.microPauseStartMs with _ | m
    · rw [tick_normal e now hp hmc]
      left
      have hsp := tickMain_spec e now
      rw [hsp.1, hsp.2.1, hsp.2.2.2.2.2.2.2.2]
      exact ⟨rfl, rfl⟩
    · by_cases hfr : now - m < e.microPauseDurationMs
      · rw [tick_frozen e now m hp hmc hfr]
        right
        exact ⟨rfl, rfl⟩
      · rw [tick_thaw e now m hp hmc (not_lt.mp hfr)]
        left
        have hsp := tickMain_spec
          { e with startTimeMs := some (e.startTimeMs.getD 0 + (now - m)),
                   microPauseStartMs := none } now
        rw [hsp.1, hsp.2.1, hsp.2.2.2.2.2.2.2.2]
        exact ⟨rfl, rfl⟩
  · rw [tick_not_playing e now hp]
    right
    exact ⟨rfl, rfl⟩

/-- Step-level firing shape for any non-reset command. -/
theorem step_outs_shape (e : Engine) (c : Cmd) (hc : c ≠ Cmd.reset) :
    ((e.step c).2 =
        (dueNow ((e.step c).1.state.elapsedMs) e.scheduled).flatMap
          (fun s => fireEventOuts s.event)
        ++ [Callback.onProgress ((e.step c).1.state.elapsedMs) e.scenario.totalDurationMs]
        ++ (if e.scenario.totalDurationMs ≤ (e.step c).1.state.elapsedMs then
              [Callback.onComplete] else [])
      ∧ (e.step c).1.scheduled = markDue ((e.step c).1.state.elapsedMs) e.scheduled)
    ∨ (e.step c).1.scheduled = e.scheduled := by
  cases c with
  | play now =>
    have hstep : e.step (Cmd.play now) = e.play now := rfl
    rcases play_shape e now with h | ⟨e2, hsch, hscn, _, _, _, _, heq⟩
    · right
      rw [hstep, h]
    · rw [hstep, heq]
      rcases tick_outs_shape e2 now with ⟨h1, h2⟩ | ⟨h2, _⟩
      · left
        rw [hsch, hscn] at h1
        rw [hsch] at h2
        exact ⟨h1, h2⟩
      · right
        rw [h2, hsch]
  | pause now =>
    right
    show (e.pause now).scheduled = e.scheduled
    unfold Engine.pause
    split <;> rfl
  | tick now =>
    rcases tick_outs_shape e now with ⟨h1, h2⟩ | ⟨h2, _⟩
    · exact Or.inl ⟨h1, h2⟩
    · exact Or.inr h2
  | typingTick k =>
    obtain ⟨at2, hat⟩ := typingStep_shape e k
    right
    show (e.typingStep k).1.scheduled = e.scheduled
    rw [hat]
  | reset => exact absurd rfl hc


theorem markDue_getElem (el : Int) (l : List ScheduledEvent) (i : Nat) (s : ScheduledEvent)
    (hi : l[i]? = some s) :
    (markDue el l)[i]? =
      some (if !s.fired && decide (s.fireAtMs ≤ el) then { s with fired := true } else s) := by
  unfold markDue
  rw [List.getElem?_map, hi]
  rfl

theorem markDue_mem_fired (el : Int) (l : List ScheduledEvent) (s : ScheduledEvent)
    (hs : s ∈ markDue el l) (hle : s.fireAtMs ≤ el) : s.fired = true := by
  unfold markDue at hs
  obtain ⟨s0, hs0, heq⟩ := List.mem_map.mp hs
  by_cases hf : s0.fired = true
  · rw [← heq]
    simp [hf]
  · by_cases hd : s0.fireAtMs ≤ el
    · rw [← heq]
      simp [hf, hd]
    · exfalso
      rw [← heq] at hle
      simp only [hf, hd] at hle
      simp only [Bool.not_false, decide_eq_true_eq] at hle
      rw [if_neg (by simp [hd])] at hle
      exact hd hle

/-- Once complete, every entry due within the total duration has fired. -/
def CompleteFired (e : Engine) : Prop :=
  e.state.phase = .complete →
    ∀ s ∈ e.scheduled, s.fireAtMs ≤ e.scenario.totalDurationMs → s.fired = true

theorem tick_complete_shape (e : Engine) (now : Int)
    (hpre : e.state.phase ≠ .complete) (hpost : (e.tick now).1.state.phase = .complete) :
    (e.tick now).1.scheduled = markDue ((e.tick now).1.state.elapsedMs) e.scheduled
    ∧ e.scenario.totalDurationMs ≤ (e.tick now).1.state.elapsedMs := by
  by_cases hp : e.state.phase = .playing
  · have hmain : ∀ e2 : Engine, e2.state.phase = e.state.phase →
        e2.scheduled = e.scheduled → e2.scenario = e.scenario →
        (e2.tickMain now).1.state.phase = .complete →
        (e2.tickMain now).1.scheduled
            = markDue ((e2.tickMain now).1.state.elapsedMs) e.scheduled
        ∧ e.scenario.totalDurationMs ≤ (e2.tickMain now).1.state.elapsedMs := by
      intro e2 hph hsch hscn hcmp
      have hsp := tickMain_spec e2 now
      by_cases hle : e2.scenario.totalDurationMs ≤ e2.elapsedAt now
      · constructor
        · rw [hsp.1, hsp.2.1, hsch]
        · rw [hsp.2.1, ← hscn]
          exact hle
      · exfalso
        rw [hsp.2.2.1, if_neg hle, hph, hp] at hcmp
        exact absurd hcmp (by simp)
    rcases hmc : e.microPauseStartMs with _ | m
    · rw [tick_normal e now hp hmc] at hpost ⊢
      exact hmain e rfl rfl rfl hpost
    · by_cases hfr : now - m < e.microPauseDurationMs
      · rw [tick_frozen e now m hp hmc hfr] at hpost
        have hcon : e.state.phase = .complete := hpost
        exact absurd hcon hpre
      · rw [tick_thaw e now m hp hmc (not_lt.mp hfr)] at hpost ⊢
        exact hmain _ rfl rfl rfl hpost
  · rw [tick_not_playing e now hp] at hpost
    exact absurd hpost hpre

theorem step_complete_shape (e : Engine) (c : Cmd) (hc : c ≠ Cmd.reset)
    (hpre : e.state.phase ≠ .complete) (hpost : (e.step c).1.state.phase = .complete) :
    (e.step c).1.scheduled = markDue ((e.step c).1.state.elapsedMs) e.scheduled
    ∧ e.scenario.totalDurationMs ≤ (e.step c).1.state.elapsedMs := by
  cases c with
  | play now =>
    have hstep : e.step (Cmd.play now) = e.play now := rfl
    rw [hstep] at hpost ⊢
    rcases play_shape e now with h | ⟨e2, hsch, hscn, _, _, _, hph2, heq⟩
    · rw [h] at hpost ⊢
      exact absurd hpost hpre
    · rw [heq] at hpost ⊢
      have h2pre : e2.state.phase ≠ .complete := by
        rw [hph2]
        simp
      have h2 := tick_complete_shape e2 now h2pre hpost
      rw [hsch, hscn] at h2
      exact h2
  | pause now =>
    exfalso
    have hpost' : (e.pause now).state.phase = .complete := hpost
    by_cases hp : e.state.phase = .playing
    · rw [pause_spec e now hp] at hpost'
      exact absurd hpost' (by simp)
    · rw [pause_not_playing e now hp] at hpost'
      exact hpre hpost'
  | tick now => exact tick_complete_shape e now hpre hpost
  | typingTick k =>
    exfalso
    obtain ⟨at2, hat⟩ := typingStep_shape e k
    have hpost' : (e.typingStep k).1.state.phase = .complete := hpost
    rw [hat] at hpost'
    exact hpre hpost'
  | reset => exact absurd rfl hc

theorem step_completeFired (e : Engine) (c : Cmd) (hc : c ≠ Cmd.reset)
    (h : CompleteFired e) : CompleteFired (e.step c).1 := by
  intro hph s hmem hle
  by_cases hpre : e.state.phase = .complete
  · have hstep := step_complete_noop e c hpre hc
    rw [hstep] at hph hmem hle
    exact h hph s hmem hle
  · obtain ⟨hsched, htot⟩ := step_complete_shape e c hc hpre hph
    rw [hsched] at hmem
    have hle' : s.fireAtMs ≤ (e.step c).1.state.elapsedMs := by
      rw [step_scenario e c] at hle
      exact le_trans hle htot
    exact markDue_mem_fired _ _ s hmem hle'

theorem runE_completeFired (e : Engine) (cmds : List Cmd) (hnr : Cmd.reset ∉ cmds)
    (h : CompleteFired e) : CompleteFired (e.runE cmds) := by
  induction cmds generalizing e with
  | nil => exact h
  | cons c cs ih =>
    exact ih (e.step c).1 (fun hm => hnr (List.mem_cons_of_mem _ hm))
      (step_completeFired e c (fun hcr => hnr (hcr ▸ List.mem_cons_self _ _)) h)


/-- **C1.** For every scenario and reset-free command sequence (arbitrary
play/pause/resume interleavings and stale callbacks): the schedule starts
with every entry unfired; fired flags never revert, so each entry fires at
most once; if the run reaches `complete` (and every offset is within the
total duration) every entry has fired — hence each event's side effect ran
exactly once; an entry only flips to fired at a step whose stored elapsed
is ≥ its due offset; when an entry fires, every still-unfired entry with a
≤ offset fires in the same step (no due event is skipped because another
shares the tick); and each step either leaves the schedule alone or marks
exactly the due unfired entries, emitting their callbacks as the
concatenation over the due entries in schedule order — the schedule being
sorted ascending by offset (stably, via the stable merge sort). -/
theorem c1_schedule_exactly_once_in_order (scn : Scenario) (cmds : List Cmd)
    (hnr : Cmd.reset ∉ cmds)
    (hoff : ∀ s ∈ buildSchedule scn, s.fireAtMs ≤ scn.totalDurationMs)
    (hcomp : (Engine.runE (Engine.init scn) cmds).state.phase = .complete) :
    (∀ s ∈ (Engine.init scn).scheduled, s.fired = false)
    ∧ (∀ k i : Nat, ∀ s s' : ScheduledEvent,
        (stateAt scn cmds k).scheduled[i]? = some s →
        (stateAt scn cmds (k + 1)).scheduled[i]? = some s' →
        s.fired = true → s'.fired = true)
    ∧ (∀ s ∈ (Engine.runE (Engine.init scn) cmds).scheduled, s.fired = true)
    ∧ (∀ k i : Nat, ∀ s s' : ScheduledEvent,
        (stateAt scn cmds k).scheduled[i]? = some s →
        (stateAt scn cmds (k + 1)).scheduled[i]? = some s' →
        s.fired = false → s'.fired = true →
        s'.fireAtMs ≤ (stateAt scn cmds (k + 1)).state.elapsedMs)
    ∧ (∀ k i j : Nat, ∀ si si' sj sj' : ScheduledEvent,
        (stateAt scn cmds k).scheduled[i]? = some si →
        (stateAt scn cmds (k + 1)).scheduled[i]? = some si' →
        (stateAt scn cmds k).scheduled[j]? = some sj →
        (stateAt scn cmds (k + 1)).scheduled[j]? = some sj' →
        si.fired = false → si'.fired = true → sj.fired = false →
        sj.fireAtMs ≤ si.fireAtMs → sj'.fired = true)
    ∧ (∀ (k : Nat) (c : Cmd), cmds[k]? = some c →
        ((outsAt scn cmds k =
            (dueNow ((stateAt scn cmds (k + 1)).state.elapsedMs)
                ((stateAt scn cmds k).scheduled)).flatMap (fun s => fireEventOuts s.event)
            ++ [Callback.onProgress ((stateAt scn cmds (k + 1)).state.elapsedMs)
                  scn.totalDurationMs]
            ++ (if scn.totalDurationMs ≤ (stateAt scn cmds (k + 1)).state.elapsedMs then
                  [Callback.onComplete] else [])
          ∧ (stateAt scn cmds (k + 1)).scheduled =
              markDue ((stateAt scn cmds (k + 1)).state.elapsedMs)
                ((stateAt scn cmds k).scheduled)
          ∧ List.Pairwise (fun a b : ScheduledEvent => a.fireAtMs ≤ b.fireAtMs)
              (dueNow ((stateAt scn cmds (k + 1)).state.elapsedMs)
                ((stateAt scn cmds k).scheduled)))
        ∨ (stateAt scn cmds (k + 1)).scheduled = (stateAt scn cmds k).scheduled)) := by
  have hcr : ∀ k, ∀ c : Cmd, cmds[k]? = some c → c ≠ Cmd.reset := fun k c h hcr =>
    hnr (hcr ▸ List.getElem?_mem h)
  have hscnAt : ∀ k, (stateAt scn cmds k).scenario = scn := fun k =>
    runE_scenario (Engine.init scn) (cmds.take k)
  refine ⟨buildSchedule_unfired scn, ?_, ?_, ?_, ?_, ?_⟩
  · intro k i s s' hi hi' hf
    rcases hck : cmds[k]? with _ | c
    · rw [stateAt_succ_none scn cmds k hck, hi] at hi'
      rw [← Option.some.inj hi']
      exact hf
    · rw [stateAt_succ scn cmds k c hck] at hi'
      rcases step_sched (stateAt scn cmds k) c (hcr k c hck) with hmd | hsame
      · rw [hmd, markDue_getElem _ _ i s hi] at hi'
        rw [← Option.some.inj hi']
        simp [hf]
      · rw [hsame, hi] at hi'
        rw [← Option.some.inj hi']
        exact hf
  · intro s hmem
    have hbase : CompleteFired (Engine.init scn) := by
      intro hph
      exact absurd hph (by simp [Engine.init])
    have hcf := runE_completeFired (Engine.init scn) cmds hnr hbase
    refine hcf hcomp s hmem ?_
    rw [runE_scenario]
    have hclear : clearFired s ∈ buildSchedule scn := by
      have h0 : (Engine.runE (Engine.init scn) cmds).scheduled.map clearFired
          = buildSchedule scn := by
        rw [runE_clearFired]
        exact map_clearFired_of_unfired _ (buildSchedule_unfired scn)
      rw [← h0]
      exact List.mem_map_of_mem clearFired hmem
    exact hoff (clearFired s) hclear
  · intro k i s s' hi hi' hf hf'
    rcases hck : cmds[k]? with _ | c
    · rw [stateAt_succ_none scn cmds k hck, hi] at hi'
      rw [← Option.some.inj hi', hf] at hf'
      exact Bool.noConfusion hf'
    · have hsucc := stateAt_succ scn cmds k c hck
      rw [hsucc] at hi' ⊢
      rcases step_sched (stateAt scn cmds k) c (hcr k c hck) with hmd | hsame
      · rw [hmd, markDue_getElem _ _ i s hi] at hi'
        have hs' := Option.some.inj hi'
        by_cases hd : (!s.fired && decide
            (s.fireAtMs ≤ ((stateAt scn cmds k).step c).1.state.elapsedMs)) = true
        · rw [if_pos hd] at hs'
          rw [← hs']
          simp only [Bool.and_eq_true, decide_eq_true_eq] at hd
          exact hd.2
        · rw [if_neg hd] at hs'
          rw [← hs', hf] at hf'
          exact Bool.noConfusion hf'
      · rw [hsame, hi] at hi'
        rw [← Option.some.inj hi', hf] at hf'
        exact Bool.noConfusion hf'
  · intro k i j si si' sj sj' hii hii' hji hji' hfi hfi' hfj hle
    rcases hck : cmds[k]? with _ | c
    · rw [stateAt_succ_none scn cmds k hck, hii] at hii'
      rw [← Option.some.inj hii', hfi] at hfi'
      exact Bool.noConfusion hfi'
    · have hsucc := stateAt_succ scn cmds k c hck
      rw [hsucc] at hii' hji'
      rcases step_sched (stateAt scn cmds k) c (hcr k c hck) with hmd | hsame
      · rw [hmd, markDue_getElem _ _ i si hii] at hii'
        have hsi' := Option.some.inj hii'
        have hdi : (!si.fired && decide
            (si.fireAtMs ≤ ((stateAt scn cmds k).step c).1.state.elapsedMs)) = true := by
          by_contra hdi
          rw [if_neg hdi] at hsi'
          rw [← hsi', hfi] at hfi'
          exact Bool.noConfusion hfi'
        simp only [hfi, Bool.not_false, Bool.true_and, decide_eq_true_eq] at hdi
        rw [hmd, markDue_getElem _ _ j sj hji] at hji'
        have hsj' := Option.some.inj hji'
        have hdj : (!sj.fired && decide
            (sj.fireAtMs ≤ ((stateAt scn cmds k).step c).1.state.elapsedMs)) = true := by
          simp [hfj, decide_eq_true_eq, le_trans hle hdi]
        rw [if_pos hdj] at hsj'
        rw [← hsj']
      · rw [hsame, hii] at hii'
        rw [← Option.some.inj hii', hfi] at hfi'
        exact Bool.noConfusion hfi'
  · intro k c hck
    have hsucc := stateAt_succ scn cmds k c hck
    have houts : outsAt scn cmds k = ((stateAt scn cmds k).step c).2 := by
      unfold outsAt
      rw [hck]
    rcases step_outs_shape (stateAt scn cmds k) c (hcr k c hck) with ⟨ho, hs⟩ | hs
    · left
      refine ⟨?_, ?_, ?_⟩
      · rw [houts, hsucc, ho, hscnAt k]
      · rw [hsucc, hs]
      · have hsorted := stateAt_sorted scn cmds k
        exact List.Pairwise.sublist (List.filter_sublist _) hsorted
    · right
      rw [hsucc, hs]

def scnW : Scenario :=
  { id := "w", title := "w", totalDurationMs := 30,
    events := [ .signalFlow { delayMs := 20, json := "x" },
                .phaseTransition { phase := .protocol, delayMs := 10 } ] }

def cmdsW : List Cmd := [Cmd.play 0, Cmd.tick 15, Cmd.tick 35]

/-- Witness for C1: a concrete two-event scenario driven to completion;
the instantiated theorem yields that every schedule entry has fired. -/
theorem c1_schedule_exactly_once_in_order_witness :
    (Engine.runE (Engine.init scnW) cmdsW).scheduled.all (fun s => s.fired) = true := by
  rw [List.all_eq_true]
  intro s hs
  exact (c1_schedule_exactly_once_in_order scnW cmdsW (by decide) (by decide)
    (by decide)).2.2.1 s hs


/-! ## C5: progress reporting -/

def isProgressCB : Callback → Bool
  | .onProgress _ _ => true
  | _ => false

theorem typingStep_no_progress (e : Engine) (k : String) :
    ∀ el tot : Int, Callback.onProgress el tot ∉ (e.typingStep k).2 := by
  intro el tot
  unfold Engine.typingStep
  split
  · simp
  · split
    · simp
    · dsimp only
      split
      · simp
      · simp

/-- Counterexample to C5 as stated: on a scenario of total duration 10,
playing from idle and ticking at wall-clock 15 issues a progress report
with elapsed 15 — the code passes the raw elapsed to the progress
callback on the completing tick, with no clamp to the total. -/
theorem c5_counterexample_progress_exceeds_total :
    Callback.onProgress 15 10 ∈
      Engine.runOuts (Engine.init scn0) [Cmd.play 0, Cmd.tick 15]
    ∧ ¬ ((15 : Int) ≤ (10 : Int)) := by decide

def cmdTime : Cmd → Option Int
  | .play t => some t
  | .pause t => some t
  | .tick t => some t
  | .typingTick _ => none
  | .reset => none

/-- Wall-clock sanity of a command list: command times are non-decreasing
(timer callbacks and public calls arrive in wall-clock order), starting
from `w`. -/
def timesOkB : Int → List Cmd → Bool
  | _, [] => true
  | w, c :: cs =>
    match cmdTime c with
    | some t => decide (w ≤ t) && timesOkB t cs
    | none => timesOkB w cs

/-- The wall-clock instant of the last timed command among the first `k`. -/
def wAt (w : Int) (cmds : List Cmd) (k : Nat) : Int :=
  (cmds.take k).foldl (fun acc c => (cmdTime c).getD acc) w

def isPauseCmd : Cmd → Bool
  | .pause _ => true
  | _ => false

/-- No `pause()` arrives while a micro-freeze is active: every pause
command in the run occurs at a state that is not playing or has no
pending freeze.  (The engine does not defend against this interleaving:
`pause()` records an elapsed that still counts frozen wall-clock time and
a later resume replays the stale freeze, corrupting the clock origin.) -/
def PausesSafeFrom (e : Engine) (cmds : List Cmd) : Prop :=
  ∀ k : Nat, k < cmds.length → isPauseCmd (cmds.getD k Cmd.reset) = true →
    (e.runE (cmds.take k)).microPauseStartMs = none
    ∨ (e.runE (cmds.take k)).state.phase ≠ .playing

instance decPausesSafeFrom (e : Engine) (cmds : List Cmd) :
    Decidable (PausesSafeFrom e cmds) := by
  unfold PausesSafeFrom
  infer_instance

/-- The timed-run invariant: `w` is the current wall-clock lower bound.
Capture of the source behavior: the clock origin never lies in the
future; a playing engine has an origin; an active freeze lies between the
origin and the present, began at the currently displayed elapsed, and
only exists while playing or complete; recorded offsets are non-negative;
the stored elapsed is ≤ the elapsed any later tick would compute; while
paused the stored elapsed is at most the recorded pause offset; idle means
elapsed 0. -/
def TimeInv (w : Int) (e : Engine) : Prop :=
  (∀ st, e.startTimeMs = some st → st ≤ w)
  ∧ (e.state.phase = .playing → e.startTimeMs ≠ none)
  ∧ (∀ m, e.microPauseStartMs = some m →
      m ≤ w ∧ (∃ st, e.startTimeMs = some st ∧ st ≤ m ∧ e.state.elapsedMs = m - st)
        ∧ (e.state.phase = .playing ∨ e.state.phase = .complete))
  ∧ 0 ≤ e.pausedAtMs
  ∧ 0 ≤ e.state.elapsedMs
  ∧ (e.state.phase = .playing → ∀ st, e.startTimeMs = some st → e.state.elapsedMs ≤ w - st)
  ∧ (e.state.phase = .paused → e.state.elapsedMs ≤ e.pausedAtMs)
  ∧ (e.state.phase = .idle → e.state.elapsedMs = 0)

theorem timeInv_mono (w w' : Int) (e : Engine) (h : TimeInv w e) (hw : w ≤ w') :
    TimeInv w' e := by
  obtain ⟨h1, h2, h3, h4, h5, h6, h7, h8⟩ := h
  refine ⟨fun st hst => le_trans (h1 st hst) hw, h2, ?_, h4, h5, ?_, h7, h8⟩
  · intro m hm
    obtain ⟨hmw, hrest⟩ := h3 m hm
    exact ⟨le_trans hmw hw, hrest⟩
  · intro hp st hst
    have := h6 hp st hst
    omega

theorem fireDue_micro_shape (e : Engine) (now el : Int) (l : List ScheduledEvent) :
    (e.fireDue now el l).1.microPauseStartMs = e.microPauseStartMs
    ∨ (e.fireDue now el l).1.microPauseStartMs = some now := by
  induction l generalizing e with
  | nil => exact Or.inl rfl
  | cons s rest ih =>
    simp only [Engine.fireDue]
    split
    · rcases ih (e.fireEvent now s.event).1 with h | h
      · rw [h, fireEvent_micro]
        split
        · exact Or.inr rfl
        · exact Or.inl rfl
      · exact Or.inr h
    · exact ih e


theorem tickMain_micro_shape (e : Engine) (now : Int) :
    (e.tickMain now).1.microPauseStartMs = e.microPauseStartMs
    ∨ (e.tickMain now).1.microPauseStartMs = some now := by
  unfold Engine.tickMain
  dsimp only
  split
  · exact fireDue_micro_shape _ now _ _
  · exact fireDue_micro_shape _ now _ _

theorem tickMain_timeInv (e : Engine) (now st : Int)
    (hst : e.startTimeMs = some st) (hstw : st ≤ now)
    (hp : e.state.phase = .playing) (hm : e.microPauseStartMs = none)
    (hpa : 0 ≤ e.pausedAtMs) :
    TimeInv now (e.tickMain now).1 ∧ (e.tickMain now).1.state.elapsedMs = now - st := by
  have hsp := tickMain_spec e now
  have hel : e.elapsedAt now = now - st := by
    simp [Engine.elapsedAt, hst]
  have helz : 0 ≤ e.elapsedAt now := by omega
  have hphase : (e.tickMain now).1.state.phase = .complete
      ∨ (e.tickMain now).1.state.phase = .playing := by
    rw [hsp.2.2.1]
    split
    · exact Or.inl rfl
    · exact Or.inr hp
  have hmicro := tickMain_micro_shape e now
  refine ⟨⟨?_, ?_, ?_, ?_, ?_, ?_, ?_, ?_⟩, by rw [hsp.2.1, hel]⟩
  · intro st' hst'
    rw [hsp.2.2.2.1, hst] at hst'
    rw [← Option.some.inj hst']
    exact hstw
  · intro _
    rw [hsp.2.2.2.1, hst]
    simp
  · intro m hmm
    rcases hmicro with h | h
    · rw [h, hm] at hmm
      exact Option.noConfusion hmm
    · rw [h] at hmm
      have hm' := Option.some.inj hmm
      subst hm'
      refine ⟨le_refl _, ⟨st, by rw [hsp.2.2.2.1, hst], hstw, by rw [hsp.2.1, hel]⟩, ?_⟩
      rcases hphase with h' | h'
      · exact Or.inr h'
      · exact Or.inl h'
  · rw [hsp.2.2.2.2.1]
    exact hpa
  · rw [hsp.2.1, hel]
    omega
  · intro _ st' hst'
    rw [hsp.2.2.2.1, hst] at hst'
    rw [← Option.some.inj hst', hsp.2.1, hel]
  · intro hpz
    rcases hphase with h' | h' <;> rw [hpz] at h' <;> exact LifecyclePhase.noConfusion h'
  · intro hpz
    rcases hphase with h' | h' <;> rw [hpz] at h' <;> exact LifecyclePhase.noConfusion h'

theorem tick_timeInv (e : Engine) (now w : Int) (hinv : TimeInv w e) (hw : w ≤ now) :
    TimeInv now (e.tick now).1
    ∧ e.state.elapsedMs ≤ (e.tick now).1.state.elapsedMs := by
  obtain ⟨h1, h2, h3, h4, h5, h6, h7, h8⟩ := hinv
  by_cases hp : e.state.phase = .playing
  · rcases hmc : e.microPauseStartMs with _ | m
    · rcases hst : e.startTimeMs with _ | st
      · exact absurd hst (h2 hp)
      · have hstw : st ≤ now := le_trans (h1 st hst) hw
        rw [tick_normal e now hp hmc]
        have h := tickMain_timeInv e now st hst hstw hp hmc h4
        refine ⟨h.1, ?_⟩
        rw [h.2]
        have := h6 hp st hst
        omega
    · by_cases hfr : now - m < e.microPauseDurationMs
      · rw [tick_frozen e now m hp hmc hfr]
        exact ⟨timeInv_mono w now e ⟨h1, h2, h3, h4, h5, h6, h7, h8⟩ hw, le_refl _⟩
      · obtain ⟨hmw, ⟨st, hst, hstm, helm⟩, _⟩ := h3 m hmc
        rw [tick_thaw e now m hp hmc (not_lt.mp hfr)]
        have hgd : e.startTimeMs.getD 0 = st := by
          rw [hst]
          rfl
        rw [hgd]
        have h := tickMain_timeInv
          { e with startTimeMs := some (st + (now - m)), microPauseStartMs := none }
          now (st + (now - m)) rfl (by omega) hp rfl h4
        refine ⟨h.1, ?_⟩
        rw [h.2]
        omega
  · rw [tick_not_playing e now hp]
    exact ⟨timeInv_mono w now e ⟨h1, h2, h3, h4, h5, h6, h7, h8⟩ hw, le_refl _⟩


theorem play_timeInv (e : Engine) (now w : Int) (hinv : TimeInv w e) (hw : w ≤ now) :
    TimeInv now (e.play now).1
    ∧ e.state.elapsedMs ≤ (e.play now).1.state.elapsedMs := by
  obtain ⟨h1, h2, h3, h4, h5, h6, h7, h8⟩ := hinv
  by_cases hc1 : e.state.phase = .complete
  · rw [play_complete e now hc1]
    exact ⟨timeInv_mono w now e ⟨h1, h2, h3, h4, h5, h6, h7, h8⟩ hw, le_refl _⟩
  · by_cases hc2 : e.state.phase = .playing
    · rw [play_playing e now hc2]
      exact ⟨timeInv_mono w now e ⟨h1, h2, h3, h4, h5, h6, h7, h8⟩ hw, le_refl _⟩
    · have hmc : e.microPauseStartMs = none := by
        rcases hm0 : e.microPauseStartMs with _ | m
        · rfl
        · obtain ⟨_, _, hpc⟩ := h3 m hm0
          rcases hpc with h' | h'
          · exact absurd h' hc2
          · exact absurd h' hc1
      by_cases hc3 : e.state.phase = .idle
      · rw [play_idle e now hc3]
        have hez : e.state.elapsedMs = 0 := h8 hc3
        have hinv2 : TimeInv now
            (Engine.resumeTypings
              { e with startTimeMs := some now, pausedAtMs := 0,
                       state := { e.state with phase := .playing } }) := by
          refine ⟨?_, ?_, ?_, ?_, ?_, ?_, ?_, ?_⟩
          · intro st hst
            have hst' : some now = some st := hst
            have := Option.some.inj hst'
            omega
          · intro _
            simp [Engine.resumeTypings]
          · intro m hm
            exact absurd (hmc ▸ hm) (by simp)
          · exact le_refl 0
          · show (0 : Int) ≤ e.state.elapsedMs
            omega
          · intro _ st hst
            have hst' : some now = some st := hst
            have := Option.some.inj hst'
            show e.state.elapsedMs ≤ now - st
            omega
          · intro hph
            exact absurd hph (by simp [Engine.resumeTypings])
          · intro hph
            exact absurd hph (by simp [Engine.resumeTypings])
        have h := tick_timeInv _ now now hinv2 (le_refl now)
        refine ⟨h.1, le_trans (le_of_eq rfl) h.2⟩
      · have hc4 : e.state.phase = .paused := by
          cases hph : e.state.phase <;> simp_all
        rw [play_paused e now hc4]
        have hinv2 : TimeInv now
            (Engine.resumeTypings
              { e with startTimeMs := some (now - e.pausedAtMs),
                       state := { e.state with phase := .playing } }) := by
          refine ⟨?_, ?_, ?_, ?_, ?_, ?_, ?_, ?_⟩
          · intro st hst
            have hst' : some (now - e.pausedAtMs) = some st := hst
            have := Option.some.inj hst'
            omega
          · intro _
            simp [Engine.resumeTypings]
          · intro m hm
            exact absurd (hmc ▸ hm) (by simp)
          · exact h4
          · exact h5
          · intro _ st hst
            have hst' : some (now - e.pausedAtMs) = some st := hst
            have h9 := Option.some.inj hst'
            have := h7 hc4
            show e.state.elapsedMs ≤ now - st
            omega
          · intro hph
            exact absurd hph (by simp [Engine.resumeTypings])
          · intro hph
            exact absurd hph (by simp [Engine.resumeTypings])
        have h := tick_timeInv _ now now hinv2 (le_refl now)
        refine ⟨h.1, le_trans (le_of_eq rfl) h.2⟩

theorem pause_timeInv (e : Engine) (now w : Int) (hinv : TimeInv w e) (hw : w ≤ now)
    (hpc : e.microPauseStartMs = none ∨ e.state.phase ≠ .playing) :
    TimeInv now (e.pause now)
    ∧ e.state.elapsedMs ≤ (e.pause now).state.elapsedMs := by
  obtain ⟨h1, h2, h3, h4, h5, h6, h7, h8⟩ := hinv
  by_cases hp : e.state.phase = .playing
  · have hmc : e.microPauseStartMs = none := by
      rcases hpc with h | h
      · exact h
      · exact absurd hp h
    rcases hst : e.startTimeMs with _ | st
    · exact absurd hst (h2 hp)
    · have hstw : st ≤ now := le_trans (h1 st hst) hw
      rw [pause_spec e now hp]
      have helat : e.elapsedAt now = now - st := by
        simp [Engine.elapsedAt, hst]
      refine ⟨⟨?_, ?_, ?_, ?_, h5, ?_, ?_, ?_⟩, le_refl _⟩
      · intro st' hst'
        rw [hst] at hst'
        rw [← Option.some.inj hst']
        exact hstw
      · intro hph
        exact absurd hph (by simp)
      · intro m hm
        exact absurd (hmc ▸ hm) (by simp)
      · show 0 ≤ e.elapsedAt now
        omega
      · intro hph
        exact absurd hph (by simp)
      · intro _
        show e.state.elapsedMs ≤ e.elapsedAt now
        have := h6 hp st hst
        omega
      · intro hph
        exact absurd hph (by simp)
  · rw [pause_not_playing e now hp]
    exact ⟨timeInv_mono w now e ⟨h1, h2, h3, h4, h5, h6, h7, h8⟩ hw, le_refl _⟩

theorem reset_timeInv (e : Engine) (w : Int) : TimeInv w e.reset := by
  refine ⟨?_, ?_, ?_, le_refl 0, le_refl 0, ?_, ?_, fun _ => rfl⟩
  · intro st hst
    exact Option.noConfusion hst
  · intro hph
    exact absurd hph (by simp [Engine.reset])
  · intro m hm
    exact Option.noConfusion hm
  · intro hph
    exact absurd hph (by simp [Engine.reset])
  · intro hph
    exact absurd hph (by simp [Engine.reset])

theorem step_timeInv (e : Engine) (c : Cmd) (w : Int) (hinv : TimeInv w e)
    (ht : ∀ t : Int, cmdTime c = some t → w ≤ t)
    (hpc : ∀ t : Int, c = Cmd.pause t →
      e.microPauseStartMs = none ∨ e.state.phase ≠ .playing) :
    TimeInv ((cmdTime c).getD w) (e.step c).1
    ∧ (c ≠ Cmd.reset → e.state.elapsedMs ≤ (e.step c).1.state.elapsedMs) := by
  cases c with
  | play t =>
    have h := play_timeInv e t w hinv (ht t rfl)
    exact ⟨h.1, fun _ => h.2⟩
  | pause t =>
    have h := pause_timeInv e t w hinv (ht t rfl) (hpc t rfl)
    exact ⟨h.1, fun _ => h.2⟩
  | tick t =>
    have h := tick_timeInv e t w hinv (ht t rfl)
    exact ⟨h.1, fun _ => h.2⟩
  | typingTick k =>
    obtain ⟨at2, hat⟩ := typingStep_shape e k
    constructor
    · show TimeInv w (e.typingStep k).1
      rw [hat]
      exact hinv
    · intro _
      show e.state.elapsedMs ≤ (e.typingStep k).1.state.elapsedMs
      rw [hat]
  | reset =>
    exact ⟨reset_timeInv e w, fun h => absurd rfl h⟩


theorem fireEventOuts_not_progress (ev : ScenarioEvent) :
    ∀ x ∈ fireEventOuts ev, isProgressCB x = false := by
  intro x hx
  cases ev <;> simp only [fireEventOuts] at hx
  case chat msg =>
    split at hx <;> simp only [List.mem_cons, List.mem_singleton] at hx <;>
      rcases hx with rfl | hx <;> first
      | rfl
      | (rcases hx with rfl | hx
         · rfl
         · simp at hx)
      | simp at hx
  case protocolCard card =>
    rw [List.mem_singleton] at hx
    rw [hx]
    rfl
  case signalFlow sf =>
    rw [List.mem_singleton] at hx
    rw [hx]
    rfl
  case phaseTransition pt =>
    rw [List.mem_singleton] at hx
    rw [hx]
    rfl

/-- Any non-reset step either performs a full firing pass — due callbacks,
then one progress report, then completion when elapsed has reached the
total — or emits neither a progress report nor a completion callback. -/
theorem step_quiet_or_fires (e : Engine) (c : Cmd) (hc : c ≠ Cmd.reset) :
    ((e.step c).2 =
        (dueNow ((e.step c).1.state.elapsedMs) e.scheduled).flatMap
          (fun s => fireEventOuts s.event)
        ++ [Callback.onProgress ((e.step c).1.state.elapsedMs) e.scenario.totalDurationMs]
        ++ (if e.scenario.totalDurationMs ≤ (e.step c).1.state.elapsedMs then
              [Callback.onComplete] else []))
    ∨ ((∀ el tot : Int, Callback.onProgress el tot ∉ (e.step c).2)
        ∧ Callback.onComplete ∉ (e.step c).2) := by
  have htickcase : ∀ e0 : Engine,
      ((e0.tick (0 : Int)).2 = (e0.tick 0).2) → True := fun _ _ => trivial
  cases c with
  | play now =>
    have hstep : e.step (Cmd.play now) = e.play now := rfl
    rw [hstep]
    rcases play_shape e now with h | ⟨e2, hsch, hscn, _, _, _, _, heq⟩
    · rw [h]
      right
      constructor
      · intro el tot hmem
        simp at hmem
      · simp
    · rw [heq]
      rcases tick_outs_shape e2 now with ⟨ho, _⟩ | ⟨_, ho⟩
      · left
        rw [ho, hsch, hscn]
      · right
        rw [ho]
        constructor
        · intro el tot hmem
          simp at hmem
        · simp
  | pause now =>
    right
    constructor
    · intro el tot hmem
      simp [Engine.step] at hmem
    · simp [Engine.step]
  | tick now =>
    rcases tick_outs_shape e now with ⟨ho, _⟩ | ⟨_, ho⟩
    · left
      exact ho
    · right
      rw [show (e.step (Cmd.tick now)).2 = (e.tick now).2 from rfl, ho]
      constructor
      · intro el tot hmem
        simp at hmem
      · simp
  | typingTick k =>
    right
    exact ⟨fun el tot => typingStep_no_progress e k el tot,
      typingStep_no_onComplete e k⟩
  | reset => exact absurd rfl hc

theorem timesOkB_cons (w : Int) (c : Cmd) (cs : List Cmd)
    (h : timesOkB w (c :: cs) = true) :
    (∀ t : Int, cmdTime c = some t → w ≤ t)
    ∧ timesOkB ((cmdTime c).getD w) cs = true := by
  rcases hct : cmdTime c with _ | t
  · simp only [timesOkB, hct] at h
    constructor
    · intro t' ht'
      exact Option.noConfusion ht'
    · exact h
  · simp only [timesOkB, hct, Bool.and_eq_true, decide_eq_true_eq] at h
    constructor
    · intro t' ht'
      rw [← Option.some.inj ht']
      exact h.1
    · exact h.2

theorem timeInv_init (scn : Scenario) : TimeInv 0 (Engine.init scn) := by
  refine ⟨?_, ?_, ?_, le_refl 0, le_refl 0, ?_, ?_, fun _ => rfl⟩
  · intro st hst
    exact Option.noConfusion hst
  · intro hph
    exact absurd hph (by simp [Engine.init])
  · intro m hm
    exact Option.noConfusion hm
  · intro hph
    exact absurd hph (by simp [Engine.init])
  · intro hph
    exact absurd hph (by simp [Engine.init])

theorem runE_timeInv_all (cmds : List Cmd) (e : Engine) (w : Int)
    (hinv : TimeInv w e) (ht : timesOkB w cmds = true)
    (hpc : PausesSafeFrom e cmds) (hnr : Cmd.reset ∉ cmds) :
    ∀ k : Nat, TimeInv (wAt w cmds k) (e.runE (cmds.take k))
      ∧ (e.runE (cmds.take k)).state.elapsedMs
          ≤ (e.runE (cmds.take (k + 1))).state.elapsedMs := by
  induction cmds generalizing e w with
  | nil =>
    intro k
    simp only [wAt, List.take_nil, List.foldl_nil, Engine.runE]
    exact ⟨hinv, le_refl _⟩
  | cons c cs ih =>
    have hcnr : c ≠ Cmd.reset := fun h => hnr (h ▸ List.mem_cons_self _ _)
    obtain ⟨hthead, httail⟩ := timesOkB_cons w c cs ht
    have hpchead : ∀ t : Int, c = Cmd.pause t →
        e.microPauseStartMs = none ∨ e.state.phase ≠ .playing := by
      intro t hcp
      have h0 := hpc 0 (by simp) (by simp [hcp, isPauseCmd])
      simpa [Engine.runE] using h0
    have hstep := step_timeInv e c w hinv hthead hpchead
    have hpctail : PausesSafeFrom (e.step c).1 cs := by
      intro k hk hp
      have h0 := hpc (k + 1) (by simpa using Nat.succ_lt_succ hk) (by simpa using hp)
      simpa [List.take_succ_cons, Engine.runE] using h0
    have hnrtail : Cmd.reset ∉ cs := fun h => hnr (List.mem_cons_of_mem _ h)
    intro k
    cases k with
    | zero =>
      constructor
      · exact hinv
      · show e.state.elapsedMs ≤ (Engine.runE e [c]).state.elapsedMs
        show e.state.elapsedMs ≤ (Engine.runE (e.step c).1 []).state.elapsedMs
        exact hstep.2 hcnr
    | succ k =>
      have hres := ih (e.step c).1 ((cmdTime c).getD w) hstep.1 httail hpctail hnrtail k
      constructor
      · show TimeInv (wAt w (c :: cs) (k + 1)) (e.runE ((c :: cs).take (k + 1)))
        rw [List.take_succ_cons]
        show TimeInv ((cs.take k).foldl (fun acc c => (cmdTime c).getD acc)
          ((cmdTime c).getD w)) (Engine.runE (e.step c).1 (cs.take k))
        exact hres.1
      · show (e.runE ((c :: cs).take (k + 1))).state.elapsedMs
            ≤ (e.runE ((c :: cs).take (k + 2))).state.elapsedMs
        rw [List.take_succ_cons, List.take_succ_cons]
        exact hres.2


theorem progress_mem_eq (scn : Scenario) (cmds : List Cmd) (hnr : Cmd.reset ∉ cmds)
    (k : Nat) (el tot : Int)
    (hmem : Callback.onProgress el tot ∈ outsAt scn cmds k) :
    el = (stateAt scn cmds (k + 1)).state.elapsedMs ∧ tot = scn.totalDurationMs := by
  rcases hck : cmds[k]? with _ | c
  · unfold outsAt at hmem
    rw [hck] at hmem
    simp at hmem
  · have houts : outsAt scn cmds k = ((stateAt scn cmds k).step c).2 := by
      unfold outsAt
      rw [hck]
    rw [houts] at hmem
    have hcnr : c ≠ Cmd.reset := fun h => hnr (h ▸ List.getElem?_mem hck)
    rcases step_quiet_or_fires (stateAt scn cmds k) c hcnr with ho | ⟨hnp, _⟩
    · rw [ho] at hmem
      have hsucc := stateAt_succ scn cmds k c hck
      simp only [List.append_assoc, List.mem_append] at hmem
      rcases hmem with hmem | hmem
      · exfalso
        simp only [List.mem_flatMap] at hmem
        obtain ⟨s, _, hs⟩ := hmem
        exact fireEventOuts_no_progress s.event el tot hs
      · simp only [List.mem_append, List.mem_singleton] at hmem
        rcases hmem with hmem | hmem
        · have hinj := (Callback.onProgress.injEq _ _ _ _).mp hmem
          have hscnk : (stateAt scn cmds k).scenario = scn :=
            runE_scenario (Engine.init scn) (cmds.take k)
          constructor
          · rw [hsucc, ← hinj.1]
          · rw [hinj.2, hscnk]
        · split at hmem <;> simp at hmem
    · exact absurd hmem (hnp el tot)

/-- **C5 (amended).** Over any reset-free run with non-decreasing command
times in which `pause()` is never invoked during an active micro-freeze:
the stored elapsed is non-negative and non-decreasing; every progress
report carries the post-step stored elapsed (hence reported values are
non-negative and non-decreasing) together with the scenario total; a
playing, non-frozen tick reports progress exactly once, while a frozen
tick reports nothing at all (the code skips the progress callback during
a freeze); and a report not accompanied by completion is strictly below
the total, while the single completing report carries the raw, unclamped
elapsed, which is ≥ the total and may exceed it. -/
theorem c5_progress_reports_amended (scn : Scenario) (cmds : List Cmd)
    (hnr : Cmd.reset ∉ cmds)
    (ht : timesOkB 0 cmds = true)
    (hpc : PausesSafeFrom (Engine.init scn) cmds) :
    (∀ k : Nat, 0 ≤ (stateAt scn cmds k).state.elapsedMs)
    ∧ (∀ k : Nat, (stateAt scn cmds k).state.elapsedMs
        ≤ (stateAt scn cmds (k + 1)).state.elapsedMs)
    ∧ (∀ k : Nat, ∀ el tot : Int, Callback.onProgress el tot ∈ outsAt scn cmds k →
        el = (stateAt scn cmds (k + 1)).state.elapsedMs ∧ tot = scn.totalDurationMs
        ∧ 0 ≤ el)
    ∧ (∀ k : Nat, ∀ now : Int, cmds[k]? = some (Cmd.tick now) →
        (stateAt scn cmds k).state.phase = .playing →
        ((stateAt scn cmds k).microPauseStartMs = none →
          ((outsAt scn cmds k).countP isProgressCB) = 1)
        ∧ (∀ m : Int, (stateAt scn cmds k).microPauseStartMs = some m →
            now - m < (stateAt scn cmds k).microPauseDurationMs →
            outsAt scn cmds k = []))
    ∧ (∀ k : Nat, ∀ el tot : Int, Callback.onProgress el tot ∈ outsAt scn cmds k →
        (Callback.onComplete ∉ outsAt scn cmds k → el < scn.totalDurationMs)
        ∧ (Callback.onComplete ∈ outsAt scn cmds k → scn.totalDurationMs ≤ el)) := by
  have hall := runE_timeInv_all cmds (Engine.init scn) 0 (timeInv_init scn) ht hpc hnr
  refine ⟨?_, ?_, ?_, ?_, ?_⟩
  · intro k
    exact ((hall k).1).2.2.2.2.1
  · intro k
    exact (hall k).2
  · intro k el tot hmem
    obtain ⟨h1, h2⟩ := progress_mem_eq scn cmds hnr k el tot hmem
    refine ⟨h1, h2, ?_⟩
    rw [h1]
    exact ((hall (k + 1)).1).2.2.2.2.1
  · intro k now hck hp
    have houts : outsAt scn cmds k = ((stateAt scn cmds k).tick now).2 := by
      unfold outsAt
      rw [hck]
      rfl
    constructor
    · intro hmc
      rw [houts, tick_normal _ now hp hmc]
      have hsp := tickMain_spec (stateAt scn cmds k) now
      rw [hsp.2.2.2.2.2.2.2.2]
      rw [List.countP_append, List.countP_append]
      have h0 : ((dueNow ((stateAt scn cmds k).elapsedAt now)
          ((stateAt scn cmds k).scheduled)).flatMap
            (fun s => fireEventOuts s.event)).countP isProgressCB = 0 := by
        rw [List.countP_eq_zero]
        intro x hx
        simp only [List.mem_flatMap] at hx
        obtain ⟨s, _, hs⟩ := hx
        rw [fireEventOuts_not_progress s.event x hs]
        simp
      rw [h0]
      split <;> rfl
    · intro m hmc hfr
      rw [houts, tick_frozen _ now m hp hmc hfr]
  · intro k el tot hmem
    obtain ⟨h1, _⟩ := progress_mem_eq scn cmds hnr k el tot hmem
    rcases hck : cmds[k]? with _ | c
    · exfalso
      unfold outsAt at hmem
      rw [hck] at hmem
      simp at hmem
    · have houts : outsAt scn cmds k = ((stateAt scn cmds k).step c).2 := by
        unfold outsAt
        rw [hck]
      have hcnr : c ≠ Cmd.reset := fun h => hnr (h ▸ List.getElem?_mem hck)
      have hsucc := stateAt_succ scn cmds k c hck
      have hscnk : (stateAt scn cmds k).scenario = scn :=
        runE_scenario (Engine.init scn) (cmds.take k)
      rcases step_quiet_or_fires (stateAt scn cmds k) c hcnr with ho | ⟨hnp, _⟩
    -- the quiet branch contradicts the progress membership
      · rw [hscnk] at ho
        by_cases hcond : scn.totalDurationMs ≤ ((stateAt scn cmds k).step c).1.state.elapsedMs
        · constructor
          · intro hnc
            exfalso
            apply hnc
            rw [houts, ho, if_pos hcond]
            simp
          · intro _
            rw [h1, hsucc]
            exact hcond
        · constructor
          · intro _
            rw [h1, hsucc]
            exact lt_of_not_le hcond
          · intro hyc
            exfalso
            rw [houts, ho, if_neg hcond] at hyc
            simp only [List.append_nil, List.append_assoc, List.mem_append] at hyc
            rcases hyc with hyc | hyc
            · simp only [List.mem_flatMap] at hyc
              obtain ⟨s, _, hs⟩ := hyc
              exact fireEventOuts_no_complete s.event hs
            · simp at hyc
      · exfalso
        rw [houts] at hmem
        exact hnp el tot hmem

def cmds5 : List Cmd :=
  [Cmd.play 0, Cmd.tick 3, Cmd.pause 5, Cmd.play 9, Cmd.tick 12, Cmd.tick 15]

/-- Witness for the amended C5: a concrete play/tick/pause/resume run —
non-negative elapsed after the resume, and monotonicity across the
completing tick. -/
theorem c5_progress_reports_amended_witness :
    0 ≤ (stateAt scn0 cmds5 4).state.elapsedMs
    ∧ (stateAt scn0 cmds5 4).state.elapsedMs ≤ (stateAt scn0 cmds5 5).state.elapsedMs :=
  ⟨(c5_progress_reports_amended scn0 cmds5 (by decide) (by decide) (by decide)).1 4,
   (c5_progress_reports_amended scn0 cmds5 (by decide) (by decide) (by decide)).2.1 4⟩


/-! ## C4: pause/resume of typing sessions -/

theorem mapLookup_mapSet_self (k : String) (v : ActiveTyping)
    (l : List (String × ActiveTyping)) : mapLookup k (mapSet k v l) = some v := by
  induction l with
  | nil => simp [mapSet, mapLookup]
  | cons kt rest ih =>
    simp only [mapSet]
    split
    · simp [mapLookup]
    · simp only [mapLookup]
      rw [if_neg ‹_›]
      exact ih

theorem mapLookup_mapSet_ne (k k' : String) (v : ActiveTyping)
    (l : List (String × ActiveTyping)) (hne : k' ≠ k) :
    mapLookup k (mapSet k' v l) = mapLookup k l := by
  induction l with
  | nil => simp [mapSet, mapLookup, hne]
  | cons kt rest ih =>
    simp only [mapSet]
    split
    · rename_i heq
      simp only [mapLookup, if_neg hne]
      rw [if_neg (show kt.1 ≠ k from fun h => hne (heq.symm.trans h))]
    · simp only [mapLookup]
      split
      · rfl
      · exact ih

theorem mapLookup_mapErase_self (k : String) (l : List (String × ActiveTyping))
    (hnd : (l.map Prod.fst).Nodup) : mapLookup k (mapErase k l) = none := by
  induction l with
  | nil => rfl
  | cons kt rest ih =>
    simp only [List.map_cons, List.nodup_cons] at hnd
    simp only [mapErase]
    split
    · rename_i heq
      subst heq
      rcases hlk : mapLookup kt.1 rest with _ | v
      · rfl
      · exfalso
        have : kt.1 ∈ rest.map Prod.fst := by
          clear ih hnd
          induction rest with
          | nil => simp [mapLookup] at hlk
          | cons kt2 r2 ih2 =>
            simp only [mapLookup] at hlk
            by_cases h2 : kt2.1 = kt.1
            · simp [h2]
            · rw [if_neg h2] at hlk
              simp only [List.map_cons, List.mem_cons]
              exact Or.inr (ih2 hlk)
        exact hnd.1 this
    · simp only [mapLookup]
      split
      · rename_i heq
        exact absurd heq ‹_›
      · exact ih hnd.2

theorem mapSet_keys_of_mem (k : String) (v : ActiveTyping)
    (l : List (String × ActiveTyping)) (h : mapLookup k l = some _x) :
    (mapSet k v l).map Prod.fst = l.map Prod.fst := by
  induction l with
  | nil => simp [mapLookup] at h
  | cons kt rest ih =>
    simp only [mapLookup] at h
    simp only [mapSet]
    split
    · rename_i heq
      simp [heq]
    · rename_i hne
      rw [if_neg hne] at h
      simp only [List.map_cons]
      rw [ih h]

theorem mapLookup_map_arm (k : String) (l : List (String × ActiveTyping))
    (f : ActiveTyping → ActiveTyping) :
    mapLookup k (l.map (fun kt => (kt.1, f kt.2))) = (mapLookup k l).map f := by
  induction l with
  | nil => rfl
  | cons kt rest ih =>
    simp only [List.map_cons, mapLookup]
    split
    · rfl
    · exact ih

/-- Iterated delivery of the typing-step timer for one session key. -/
def typingIter (key : String) : Nat → Engine → Engine × List Callback
  | 0, e => (e, [])
  | n + 1, e =>
    let r := e.typingStep key
    let r2 := typingIter key n r.1
    (r2.1, r.2 ++ r2.2)

/-- Well-formedness of a live word-typing session, exactly as
`_startTyping` creates one and `_scheduleTypingTick` maintains it: the
word-end list is strictly increasing with the final character's index
last, the word cursor is inside the list past position 0, and the
revealed char cursor is the previously consumed word end. -/
def TypingInv (t : ActiveTyping) : Prop :=
  List.Pairwise (· < ·) t.wordEnds
  ∧ t.wordEnds[t.wordEnds.length - 1]? = some (t.text.length - 1)
  ∧ 2 ≤ t.wordEnds.length
  ∧ 1 ≤ t.wordIndex
  ∧ t.wordIndex < t.wordEnds.length
  ∧ t.charIndex = t.wordEnds[t.wordIndex - 1]?

instance decTypingInv (t : ActiveTyping) : Decidable (TypingInv t) := by
  unfold TypingInv
  infer_instance

theorem typingStep_lookup_some (e : Engine) (key : String) (t : ActiveTyping)
    (hp : e.state.phase = .playing) (hk : mapLookup key e.activeTypings = some t) :
    e.typingStep key =
      (let newCI := t.wordEnds[t.wordIndex]?
       let t1 : ActiveTyping :=
         { t with charIndex := newCI, wordIndex := t.wordIndex + 1, intervalId := true }
       if (match newCI with
           | some c => decide (t.text.length - 1 ≤ c)
           | none => false) = true then
         ({ e with activeTypings := mapErase key e.activeTypings },
          [Callback.onChatMessage t.msg newCI t.text.length,
           Callback.onChatMessageComplete t.msg])
       else
         ({ e with activeTypings := mapSet key t1 e.activeTypings },
          [Callback.onChatMessage t.msg newCI t.text.length])) := by
  unfold Engine.typingStep
  rw [if_neg (by simp [hp]), hk]


theorem typingIter_completes (n : Nat) :
    ∀ (e : Engine) (key : String) (t : ActiveTyping),
    e.state.phase = .playing →
    mapLookup key e.activeTypings = some t →
    TypingInv t →
    (e.activeTypings.map Prod.fst).Nodup →
    n = t.wordEnds.length - t.wordIndex →
    mapLookup key ((typingIter key n e).1).activeTypings = none
    ∧ (typingIter key n e).2
        = (t.wordEnds.drop t.wordIndex).map
            (fun c => Callback.onChatMessage t.msg (some c) t.text.length)
          ++ [Callback.onChatMessageComplete t.msg] := by
  induction n with
  | zero =>
    intro e key t hp hk hinv hnd hn
    obtain ⟨_, _, _, _, hwilt, _⟩ := hinv
    exact absurd hn (by omega)
  | succ n ih =>
    intro e key t hp hk hinv hnd hn
    obtain ⟨hpw, hlast, hlen2, hwi1, hwilt, hci⟩ := hinv
    have hstep := typingStep_lookup_some e key t hp hk
    have hcidx : t.wordEnds[t.wordIndex]? = some t.wordEnds[t.wordIndex] :=
      List.getElem?_eq_getElem hwilt
    by_cases hlastidx : t.wordIndex = t.wordEnds.length - 1
    · -- final word: the step completes and deletes the session
      have hn0 : n = 0 := by omega
      subst hn0
      have hval : t.wordEnds[t.wordIndex] = t.text.length - 1 := by
        have h1 : t.wordEnds[t.wordEnds.length - 1]? = some t.wordEnds[t.wordIndex] := by
          rw [← hlastidx]
          exact hcidx
        rw [hlast] at h1
        exact (Option.some.inj h1).symm
      have hcond : (match t.wordEnds[t.wordIndex]? with
          | some c => decide (t.text.length - 1 ≤ c)
          | none => false) = true := by
        rw [hcidx, hval]
        simp
      rw [show typingIter key 1 e = ((e.typingStep key).1, (e.typingStep key).2 ++ []) from rfl]
      rw [hstep]
      simp only [hcond, if_true]
      constructor
      · exact mapLookup_mapErase_self key e.activeTypings hnd
      · rw [List.append_nil]
        have hdrop : t.wordEnds.drop t.wordIndex = [t.wordEnds[t.wordIndex]] := by
          rw [List.drop_eq_getElem_cons hwilt,
            List.drop_eq_nil_of_le (by omega)]
        rw [hdrop, hcidx, hval]
        simp
    · -- middle word: the step advances the cursor and re-arms
      have hwltm : t.wordIndex < t.wordEnds.length - 1 := by omega
      have hcv : t.wordEnds[t.wordIndex] < t.text.length - 1 := by
        have hlt := List.pairwise_iff_getElem.mp hpw t.wordIndex (t.wordEnds.length - 1)
          hwilt (by omega) (by omega)
        have h1 : t.wordEnds[t.wordEnds.length - 1]? =
            some t.wordEnds[t.wordEnds.length - 1] :=
          List.getElem?_eq_getElem (by omega)
        rw [hlast] at h1
        rw [Option.some.inj h1]
        exact hlt
      have hcond : (match t.wordEnds[t.wordIndex]? with
          | some c => decide (t.text.length - 1 ≤ c)
          | none => false) = false := by
        rw [hcidx]
        show decide (t.text.length - 1 ≤ t.wordEnds[t.wordIndex]) = false
        rw [decide_eq_false_iff_not]
        omega
      rw [show typingIter key (n + 1) e
          = ((typingIter key n (e.typingStep key).1).1,
             (e.typingStep key).2 ++ (typingIter key n (e.typingStep key).1).2) from rfl]
      rw [hstep]
      simp only [hcond, Bool.false_eq_true, if_false]
      set t1 : ActiveTyping :=
        { t with charIndex := t.wordEnds[t.wordIndex]?,
                 wordIndex := t.wordIndex + 1, intervalId := true } with ht1
      set e1 : Engine := { e with activeTypings := mapSet key t1 e.activeTypings } with he1
      have hinv1 : TypingInv t1 := by
        refine ⟨hpw, hlast, hlen2, by
          show 1 ≤ t.wordIndex + 1
          omega, by
          show t.wordIndex + 1 < t.wordEnds.length
          omega, ?_⟩
        show t.wordEnds[t.wordIndex]? = t.wordEnds[t.wordIndex + 1 - 1]?
        rfl
      have hres := ih e1 key t1 hp (mapLookup_mapSet_self key t1 e.activeTypings) hinv1
        (by
          rw [he1]
          show ((mapSet key t1 e.activeTypings).map Prod.fst).Nodup
          rw [mapSet_keys_of_mem key t1 e.activeTypings hk]
          exact hnd)
        (by
          show n = t1.wordEnds.length - t1.wordIndex
          show n = t.wordEnds.length - (t.wordIndex + 1)
          omega)
      refine ⟨hres.1, ?_⟩
      rw [hres.2]
      have hdrop : t.wordEnds.drop t.wordIndex
          = t.wordEnds[t.wordIndex] :: t.wordEnds.drop (t.wordIndex + 1) :=
        List.drop_eq_getElem_cons hwilt
      rw [hdrop]
      simp only [List.map_cons, List.cons_append, hcidx]
      rfl


theorem fireEvent_lookup_ne (e : Engine) (now : Int) (ev : ScenarioEvent) (key : String)
    (h : ∀ msg : ChatMessage, ev = .chat msg → typingKey msg ≠ key) :
    mapLookup key (e.fireEvent now ev).1.activeTypings
      = mapLookup key e.activeTypings := by
  cases ev with
  | chat msg =>
    have hne := h msg rfl
    show mapLookup key (e.startTyping msg).1.activeTypings = mapLookup key e.activeTypings
    unfold Engine.startTyping
    dsimp only
    split
    · rfl
    · exact mapLookup_mapSet_ne key _ _ _ hne
  | protocolCard card =>
    show mapLookup key
      (if card.isError then
        ({ e with microPauseStartMs := some now }, [Callback.onProtocolCard card])
      else (e, [Callback.onProtocolCard card])).1.activeTypings
      = mapLookup key e.activeTypings
    split <;> rfl
  | signalFlow sf => rfl
  | phaseTransition pt => rfl

theorem fireDue_lookup (e : Engine) (now el : Int) (l : List ScheduledEvent) (key : String)
    (h : ∀ s ∈ l, s.fired = false → ∀ msg : ChatMessage,
      s.event = .chat msg → typingKey msg ≠ key) :
    mapLookup key (e.fireDue now el l).1.activeTypings
      = mapLookup key e.activeTypings := by
  induction l generalizing e with
  | nil => rfl
  | cons s rest ih =>
    simp only [Engine.fireDue]
    split
    · rename_i hdue
      have hsf : s.fired = false := by
        rcases hf : s.fired
        · rfl
        · rw [hf] at hdue
          simp at hdue
      have h1 := fireEvent_lookup_ne e now s.event key (h s (List.mem_cons_self _ _) hsf)
      exact (ih _ (fun x hx => h x (List.mem_cons_of_mem _ hx))).trans h1
    · exact ih e (fun x hx => h x (List.mem_cons_of_mem _ hx))

theorem tickMain_lookup (e : Engine) (now : Int) (key : String)
    (h : ∀ s ∈ e.scheduled, s.fired = false → ∀ msg : ChatMessage,
      s.event = .chat msg → typingKey msg ≠ key) :
    mapLookup key (e.tickMain now).1.activeTypings
      = mapLookup key e.activeTypings := by
  unfold Engine.tickMain
  dsimp only
  split
  · exact fireDue_lookup _ now _ _ key h
  · exact fireDue_lookup _ now _ _ key h

theorem tick_lookup (e : Engine) (now : Int) (key : String)
    (h : ∀ s ∈ e.scheduled, s.fired = false → ∀ msg : ChatMessage,
      s.event = .chat msg → typingKey msg ≠ key) :
    mapLookup key (e.tick now).1.activeTypings = mapLookup key e.activeTypings := by
  by_cases hp : e.state.phase = .playing
  · rcases hmc : e.microPauseStartMs with _ | m
    · rw [tick_normal e now hp hmc]
      exact tickMain_lookup e now key h
    · by_cases hfr : now - m < e.microPauseDurationMs
      · rw [tick_frozen e now m hp hmc hfr]
      · rw [tick_thaw e now m hp hmc (not_lt.mp hfr)]
        exact tickMain_lookup _ now key h
  · rw [tick_not_playing e now hp]

theorem arm_eq (t : ActiveTyping) :
    (if t.intervalId then t else { t with intervalId := true })
      = { t with intervalId := true } := by
  split
  · rename_i h
    cases t with
    | mk msg text ci we wi iv =>
      simp only at h
      rw [h]
  · rfl

/-- **C4.** Pausing the engine cancels every active typing session's
pending step while keeping the session and its reveal cursor; resuming
re-arms a pending step for every session that has none, continuing from
the stored cursor; through a full `play()` from paused each session
survives armed with its cursor intact (as long as no newly due chat event
collides with its key); and from any playing state a live well-formed
session, fed its typing-step timer, completes after finitely many steps,
revealing a strictly increasing sequence of cursors — each strictly
beyond the stored cursor, so revealed text is never re-revealed or reset
— and ending with exactly one completion callback, after which the
session is gone. -/
theorem c4_typing_pause_resume (e : Engine) (now now2 : Int) :
    (e.state.phase = .playing →
      (e.pause now).activeTypings
        = e.activeTypings.map (fun kt => (kt.1, { kt.2 with intervalId := false })))
    ∧ (Engine.resumeTypings e).activeTypings
        = e.activeTypings.map (fun kt =>
            (kt.1, if kt.2.intervalId then kt.2 else { kt.2 with intervalId := true }))
    ∧ (∀ (key : String) (t : ActiveTyping), e.state.phase = .paused →
        mapLookup key e.activeTypings = some t →
        (∀ s ∈ e.scheduled, s.fired = false → ∀ msg : ChatMessage,
          s.event = .chat msg → typingKey msg ≠ key) →
        mapLookup key ((e.play now2).1).activeTypings
          = some { t with intervalId := true })
    ∧ (∀ (key : String) (t : ActiveTyping), e.state.phase = .playing →
        mapLookup key e.activeTypings = some t →
        TypingInv t →
        (e.activeTypings.map Prod.fst).Nodup →
        ∃ n : Nat,
          mapLookup key ((typingIter key n e).1).activeTypings = none
          ∧ (typingIter key n e).2
              = (t.wordEnds.drop t.wordIndex).map
                  (fun c => Callback.onChatMessage t.msg (some c) t.text.length)
                ++ [Callback.onChatMessageComplete t.msg]
          ∧ List.Pairwise (· < ·) (t.wordEnds.drop t.wordIndex)
          ∧ (∀ c0 : Nat, t.charIndex = some c0 →
              ∀ c ∈ t.wordEnds.drop t.wordIndex, c0 < c)) := by
  refine ⟨?_, rfl, ?_, ?_⟩
  · intro hp
    rw [pause_spec e now hp]
  · intro key t hps hk hno
    rw [play_paused e now2 hps]
    have hk2 : mapLookup key
        (Engine.resumeTypings
          { e with startTimeMs := some (now2 - e.pausedAtMs),
                   state := { e.state with phase := .playing } }).activeTypings
        = some { t with intervalId := true } := by
      show mapLookup key
          (e.activeTypings.map (fun kt =>
            (kt.1, if kt.2.intervalId then kt.2 else { kt.2 with intervalId := true })))
        = some { t with intervalId := true }
      rw [mapLookup_map_arm key e.activeTypings
        (fun x => if x.intervalId then x else { x with intervalId := true }), hk]
      show some (if t.intervalId then t else { t with intervalId := true })
        = some { t with intervalId := true }
      rw [arm_eq]
    have htl := tick_lookup
      (Engine.resumeTypings
        { e with startTimeMs := some (now2 - e.pausedAtMs),
                 state := { e.state with phase := .playing } }) now2 key hno
    rw [htl, hk2]
  · intro key t hp hk hinv hnd
    refine ⟨t.wordEnds.length - t.wordIndex, ?_⟩
    obtain ⟨h1, h2⟩ := typingIter_completes (t.wordEnds.length - t.wordIndex) e key t
      hp hk hinv hnd rfl
    obtain ⟨hpw, _, _, hwi1, hwilt, hci⟩ := hinv
    refine ⟨h1, h2, List.Pairwise.sublist (List.drop_sublist _ _) hpw, ?_⟩
    intro c0 hc0 c hc
    obtain ⟨i, hi⟩ := List.mem_iff_getElem?.mp hc
    rw [List.getElem?_drop] at hi
    have hiin : t.wordIndex + i < t.wordEnds.length := by
      by_contra hcon
      rw [List.getElem?_eq_none (by omega)] at hi
      exact Option.noConfusion hi
    have hc' : t.wordEnds[t.wordIndex + i] = c := by
      rw [List.getElem?_eq_getElem hiin] at hi
      exact Option.some.inj hi
    have hc0' : t.wordEnds[t.wordIndex - 1] = c0 := by
      rw [hci, List.getElem?_eq_getElem (by omega)] at hc0
      exact (Option.some.inj hc0)
    have hlt := List.pairwise_iff_getElem.mp hpw (t.wordIndex - 1) (t.wordIndex + i)
      (by omega) (by omega) (by omega)
    rw [hc', hc0'] at hlt
    exact hlt

def msgW2 : ChatMessage :=
  { panel := .left, sender := .user, name := "n", text := "ab cd", delayMs := 0 }

def tW : ActiveTyping :=
  { msg := msgW2, text := "ab cd", charIndex := some 2, wordEnds := [2, 4],
    wordIndex := 1, intervalId := false }

def ePausedW : Engine :=
  { scenario := scn0
    state := { phase := .paused, currentPhase := .preSession, elapsedMs := 3,
               totalDurationMs := 10 }
    startTimeMs := some 0
    pausedAtMs := 3
    rafId := false
    scheduled := []
    activeTypings := [("left-0", tW)]
    microPauseStartMs := none
    microPauseDurationMs := 800 }

def ePlayingW : Engine :=
  { ePausedW with
    state := { ePausedW.state with phase := .playing },
    activeTypings := [("left-0", { tW with intervalId := true })] }

/-- Witness for C4: a concrete paused engine holding one suspended
two-word session, resumed at wall-clock 100, and the armed session driven
to completion. -/
theorem c4_typing_pause_resume_witness :
    ((ePlayingW.pause 5).activeTypings
      = ePlayingW.activeTypings.map (fun kt => (kt.1, { kt.2 with intervalId := false })))
    ∧ mapLookup "left-0" ((ePausedW.play 100).1).activeTypings
        = some { tW with intervalId := true }
    ∧ (∃ n : Nat,
        mapLookup "left-0" ((typingIter "left-0" n ePlayingW).1).activeTypings = none
        ∧ (typingIter "left-0" n ePlayingW).2
            = (tW.wordEnds.drop tW.wordIndex).map
                (fun c => Callback.onChatMessage tW.msg (some c) tW.text.length)
              ++ [Callback.onChatMessageComplete tW.msg]
        ∧ List.Pairwise (· < ·) (tW.wordEnds.drop tW.wordIndex)
        ∧ (∀ c0 : Nat, tW.charIndex = some c0 →
            ∀ c ∈ tW.wordEnds.drop tW.wordIndex, c0 < c)) := by
  refine ⟨(c4_typing_pause_resume ePlayingW 5 100).1 rfl, ?_, ?_⟩
  · exact (c4_typing_pause_resume ePausedW 5 100).2.2.1 "left-0" tW rfl rfl
      (by intro s hs; simp [ePausedW] at hs)
  · have h := (c4_typing_pause_resume ePlayingW 5 100).2.2.2 "left-0"
      { tW with intervalId := true } rfl rfl (by decide) (by decide)
    exact h

end Sim
